import Mathlib

/-!
A verification development for the evm-cli interactive session engine.

The Rust sources are shallowly embedded: paths and addresses are strings,
`HashMap`s are association lists with unique keys, and the external
filesystem canonicalization is an explicit function parameter.  Each
definition mirrors one Rust item (named in its doc comment).
-/

namespace EvmCli

/-! ## Hex / numeric primitives (model of the alloy and hex crates used by the code) -/

/-- Value of a hex digit, as in the `hex` crate: `0`-`9`, `a`-`f`, `A`-`F`. -/
def hexVal (c : Char) : Option Nat :=
  if '0' ≤ c ∧ c ≤ '9' then some (c.toNat - '0'.toNat)
  else if 'a' ≤ c ∧ c ≤ 'f' then some (c.toNat - 'a'.toNat + 10)
  else if 'A' ≤ c ∧ c ≤ 'F' then some (c.toNat - 'A'.toNat + 10)
  else none

/-- `hex::decode` on a list of characters: pairs of hex digits to bytes;
odd length or a non-hex character is an error; the empty string decodes to `[]`. -/
def decodeHexBytes : List Char → Option (List Nat)
  | [] => some []
  | [_] => none
  | c1 :: c2 :: rest =>
    match hexVal c1, hexVal c2, decodeHexBytes rest with
    | some h, some l, some bs => some ((16 * h + l) :: bs)
    | _, _, _ => none

/-- Does the string start with `0x`? -/
def startsWith0x (s : String) : Bool :=
  match s.toList with
  | '0' :: 'x' :: _ => true
  | _ => false

/-- `str::strip_prefix("0x")` followed by `unwrap_or(input)`: remove at most one `0x`. -/
def strip0x (s : String) : String :=
  match s.toList with
  | '0' :: 'x' :: rest => String.mk rest
  | _ => s

/-- ASCII lowercasing (`str::to_lowercase`). -/
def lowerStr (s : String) : String :=
  String.mk (s.toList.map Char.toLower)

/-- Lexicographic strict order on character lists (Rust `str`/`Path`
ordering). -/
def charListLt : List Char → List Char → Bool
  | [], [] => false
  | [], _ :: _ => true
  | _ :: _, [] => false
  | a :: as, b :: bs =>
    if a < b then true else if b < a then false else charListLt as bs

/-- Rust `cmp` rendered as a strict-less test on strings. -/
def strLt (a b : String) : Bool :=
  charListLt a.toList b.toList

/-- Rust `cmp(..) != Greater`: less-or-equal on strings. -/
def strLe (a b : String) : Bool :=
  strLt a b || a == b

/-- Rust `trim_start_matches("0x")`: remove every leading occurrence of `0x`. -/
def trim0xChars : List Char → List Char
  | '0' :: 'x' :: rest => trim0xChars rest
  | cs => cs

/-- `alloy::primitives::Address` values are modelled by their canonical debug
string `0x` + 40 lowercase hex digits (the form `format!("{address:?}")` yields,
which is what the store persists). -/
abbrev AddressStr := String

/-- `input.parse::<Address>()` (alloy `Address`/`FixedBytes<20>` `FromStr`):
an optional `0x` prefix followed by exactly 40 hex digits, no checksum
validation; the parsed value is returned in its canonical lowercase form. -/
def parseAddress (s : String) : Option AddressStr :=
  let t := (strip0x s).toList
  if t.length == 40 && t.all (fun c => (hexVal c).isSome) then
    some ("0x" ++ String.mk (t.map Char.toLower))
  else
    none

/-- A string is a canonical (debug-form) address: it is parsed back as itself. -/
def isNormalizedAddress (s : String) : Bool :=
  parseAddress s == some s

/-- Decimal digits of a character. -/
def decDigitVal (c : Char) : Option Nat :=
  if '0' ≤ c ∧ c ≤ '9' then some (c.toNat - '0'.toNat) else none

/-- Plain decimal parse of a nonempty all-digit string. -/
def parseDecNat (s : String) : Option Nat :=
  let cs := s.toList
  if cs.isEmpty then none
  else
    cs.foldl
      (fun acc c =>
        match acc, decDigitVal c with
        | some a, some d => some (10 * a + d)
        | _, _ => none)
      (some 0)

/-- Hex parse of a nonempty all-hex-digit string. -/
def parseHexNat (s : String) : Option Nat :=
  let cs := s.toList
  if cs.isEmpty then none
  else
    cs.foldl
      (fun acc c =>
        match acc, hexVal c with
        | some a, some d => some (16 * a + d)
        | _, _ => none)
      (some 0)

/-- Modelled from the spec: `input.parse::<U256>()` — a decimal literal,
`decoded as an arbitrary-precision integer`, erroring on overflow past
`2^256 - 1` (the `U256` range). -/
def parseU256Dec (s : String) : Option Nat :=
  match parseDecNat s with
  | some v => if v < 2 ^ 256 then some v else none
  | none => none

/-- Modelled from the spec: `U256::from_str_radix(.., 16)` — a hex literal,
erroring on overflow past `2^256 - 1`. -/
def parseU256Hex (s : String) : Option Nat :=
  match parseHexNat s with
  | some v => if v < 2 ^ 256 then some v else none
  | none => none

/-- Modelled from the spec: `input.parse::<I256>()` — a decimal literal with an
optional sign, erroring outside the `I256` range `[-2^255, 2^255)`. -/
def parseI256Dec (s : String) : Option Int :=
  let (neg, digits) :=
    match s.toList with
    | '-' :: r => (true, r)
    | '+' :: r => (false, r)
    | r => (false, r)
  match parseDecNat (String.mk digits) with
  | some v =>
    if neg then
      if v ≤ 2 ^ 255 then some (-(v : Int)) else none
    else
      if v < 2 ^ 255 then some (v : Int) else none
  | none => none

/-! ## Solidity type descriptors (model of `alloy::dyn_abi::DynSolType` parsing)

`parse_value` first runs `type_str.parse::<DynSolType>()`.  Only the leaf
types below are then handled; every other descriptor — a parse failure or a
composite type (array, tuple, ...) — produces the same
`"Unsupported type: ..."` error, so the model collapses both into
a single `none`. -/

inductive SolType where
  | address
  | bool
  | uint (bits : Nat)
  | int (bits : Nat)
  | bytes
  | fixedBytes (size : Nat)
  | string
deriving DecidableEq, Repr

/-- The leaf fragment of the Solidity type grammar accepted by
`DynSolType::parse`: `uintN`/`intN` need `N ∈ {8, 16, ..., 256}` (bare
`uint`/`int` mean 256), `bytesN` needs `1 ≤ N ≤ 32`.  Composite and unknown
descriptors are `none` (they reach `parse_value`'s catch-all arm). -/
def parseSolType (t : String) : Option SolType :=
  if t = "address" then some .address
  else if t = "bool" then some .bool
  else if t = "string" then some .string
  else if t = "bytes" then some .bytes
  else if t = "uint" then some (.uint 256)
  else if t = "int" then some (.int 256)
  else
    match t.toList with
    | 'u' :: 'i' :: 'n' :: 't' :: rest =>
      match parseDecNat (String.mk rest) with
      | some n =>
        if 0 < n && n ≤ 256 && n % 8 == 0 then some (.uint n) else none
      | none => none
    | 'i' :: 'n' :: 't' :: rest =>
      match parseDecNat (String.mk rest) with
      | some n =>
        if 0 < n && n ≤ 256 && n % 8 == 0 then some (.int n) else none
      | none => none
    | 'b' :: 'y' :: 't' :: 'e' :: 's' :: rest =>
      match parseDecNat (String.mk rest) with
      | some n => if 1 ≤ n && n ≤ 32 then some (.fixedBytes n) else none
      | none => none
    | _ => none

/-- Model of `alloy::dyn_abi::DynSolValue` restricted to the constructors
`parse_value` can produce. -/
inductive SolValue where
  | address (a : AddressStr)
  | bool (b : Bool)
  | uint (v : Nat) (bits : Nat)
  | int (v : Int) (bits : Nat)
  | bytes (bs : List Nat)
  | fixedBytes (bs : List Nat) (size : Nat)
  | string (s : String)
deriving DecidableEq, Repr

/-- `app.rs::parse_value`: convert one raw text field into a typed value
against a Solidity type descriptor. -/
def parse_value (input : String) (type_str : String) :
    Except String SolValue :=
  match parseSolType type_str with
  | none => .error ("Unsupported type: " ++ type_str)
  | some .address =>
    match parseAddress input with
    | some a => .ok (.address a)
    | none => .error "Invalid address format"
  | some .bool =>
    let l := lowerStr input
    if l = "true" ∨ l = "1" ∨ l = "yes" then .ok (.bool true)
    else if l = "false" ∨ l = "0" ∨ l = "no" then .ok (.bool false)
    else .error "Invalid boolean (use true/false)"
  | some (.uint bits) =>
    if startsWith0x input then
      match parseU256Hex (String.mk (trim0xChars input.toList)) with
      | some v => .ok (.uint v bits)
      | none => .error "Invalid hex number"
    else
      match parseU256Dec input with
      | some v => .ok (.uint v bits)
      | none => .error "Invalid number"
  | some (.int bits) =>
    match parseI256Dec input with
    | some v => .ok (.int v bits)
    | none => .error "Invalid number"
  | some .bytes =>
    match decodeHexBytes (strip0x input).toList with
    | some bs => .ok (.bytes bs)
    | none => .error "Invalid hex string"
  | some (.fixedBytes size) =>
    match decodeHexBytes (strip0x input).toList with
    | some bs =>
      if bs.length ≠ size then .error ("Expected " ++ toString size ++ " bytes")
      else .ok (.fixedBytes bs size)
    | none => .error "Invalid hex string"
  | some .string => .ok (.string input)

/-! ## Deployment store (model of `store.rs`)

`HashMap<String, Vec<String>>` is modelled as an association list whose keys
are unique (the `HashMap` invariant); lookups read the first matching pair.
Filesystem canonicalization (`Path::canonicalize`, which can fail) is an
explicit parameter `canon`. -/

/-- `store.rs::ContractId` — file path and contract name. -/
structure ContractId where
  path : String
  name : String
deriving DecidableEq, Repr

/-- The deployments map: key `"<path>:<Name>"` to address strings. -/
abbrev Deployments := List (String × List String)

/-- First-match association-list lookup (`HashMap::get`). -/
def findEntry : Deployments → String → Option (List String)
  | [], _ => none
  | (k', v) :: rest, k => if k' = k then some v else findEntry rest k

/-- Write an entry: replace the first pair with this key, or append a new
pair when the key is absent (`HashMap::entry(..).or_default()` then write). -/
def setEntry : Deployments → String → List String → Deployments
  | [], k, v => [(k, v)]
  | (k', v') :: rest, k, v =>
    if k' = k then (k, v) :: rest else (k', v') :: setEntry rest k v

/-- Remove every pair with this key (`HashMap::remove`; keys are unique, so
at most one pair is ever removed). -/
def removeKey (m : Deployments) (k : String) : Deployments :=
  m.filter (fun p => p.1 ≠ k)

/-- `ContractId::to_key`: canonicalize the path (falling back to the spelled
path when canonicalization fails) and append `:<name>`. -/
def ContractId.toKey (canon : String → Option String) (id : ContractId) :
    String :=
  ((canon id.path).getD id.path) ++ ":" ++ id.name

/-- Split a character list at its last colon (`str::rfind(':')`): the part
before and the part after.  A colon deeper in the list wins. -/
def lastColonSplit : List Char → Option (List Char × List Char)
  | [] => none
  | c :: rest =>
    match lastColonSplit rest with
    | some (p, n) => some (c :: p, n)
    | none => if c = ':' then some ([], rest) else none

/-- `ContractId::from_key`: split at the last colon; an absent colon or an
empty name is invalid. -/
def ContractId.fromKey (key : String) : Option ContractId :=
  match lastColonSplit key.toList with
  | none => none
  | some (p, n) =>
    if n.isEmpty then none
    else some ⟨String.mk p, String.mk n⟩

/-- `store.rs::DeploymentStore` (the persisted `config` section carries no
registry state and is omitted). -/
structure DeploymentStoreM where
  deployments : Deployments
deriving DecidableEq, Repr

/-- `DeploymentStore::get_deployments`: parse each stored string as an
address, silently dropping the ones that fail; an absent entry gives `[]`. -/
def get_deployments (canon : String → Option String) (store : DeploymentStoreM)
    (id : ContractId) : List AddressStr :=
  ((findEntry store.deployments (id.toKey canon)).getD []).filterMap
    parseAddress

/-- `DeploymentStore::add_deployment`: create the entry if absent, then
append the debug-formatted address string only when it is not already
present. -/
def add_deployment (canon : String → Option String) (store : DeploymentStoreM)
    (id : ContractId) (addr : AddressStr) : DeploymentStoreM :=
  let key := id.toKey canon
  let e := (findEntry store.deployments key).getD []
  let e' := if addr ∈ e then e else e ++ [addr]
  ⟨setEntry store.deployments key e'⟩

/-- `DeploymentStore::remove_deployment`: remove the first occurrence of the
address from the entry, keeping the entry itself; `true` iff it was there. -/
def remove_deployment (canon : String → Option String)
    (store : DeploymentStoreM) (id : ContractId) (addr : AddressStr) :
    DeploymentStoreM × Bool :=
  let key := id.toKey canon
  match findEntry store.deployments key with
  | none => (store, false)
  | some e =>
    if addr ∈ e then (⟨setEntry store.deployments key (e.erase addr)⟩, true)
    else (store, false)

/-- `DeploymentStore::remove_contract`: delete the whole entry; `true` iff
the key was present. -/
def remove_contract (canon : String → Option String)
    (store : DeploymentStoreM) (id : ContractId) : DeploymentStoreM × Bool :=
  if (findEntry store.deployments (id.toKey canon)).isSome then
    (⟨removeKey store.deployments (id.toKey canon)⟩, true)
  else (store, false)

/-- `DeploymentStore::all_contracts`: parse each key back to a `ContractId`,
dropping invalid keys. -/
def all_contracts (store : DeploymentStoreM) : List ContractId :=
  (store.deployments.map Prod.fst).filterMap ContractId.fromKey

/-- `DeploymentStore::ensure_contract`: insert an empty entry if absent. -/
def ensure_contract (canon : String → Option String)
    (store : DeploymentStoreM) (id : ContractId) : DeploymentStoreM :=
  if (findEntry store.deployments (id.toKey canon)).isSome then store
  else ⟨store.deployments ++ [(id.toKey canon, [])]⟩

/-! ## ABI model (the fragment of `alloy::json_abi` the code reads) -/

/-- `alloy::json_abi::Param` — declared name and Solidity type descriptor. -/
structure ParamM where
  name : String
  ty : String
deriving DecidableEq, Repr

/-- `alloy::json_abi::StateMutability`. -/
inductive StateMut where
  | pureM
  | view
  | nonpayable
  | payable
deriving DecidableEq, Repr

/-- `alloy::json_abi::Function` — the fields read by the code. -/
structure FunctionM where
  name : String
  inputs : List ParamM
  outputs : List ParamM
  state_mutability : StateMut
deriving DecidableEq, Repr

/-- `alloy::json_abi::Constructor`. -/
structure ConstructorM where
  inputs : List ParamM
deriving DecidableEq, Repr

/-- `alloy::json_abi::JsonAbi` — `functions` is the list produced by
`abi.functions()` (constructor kept separately, so these are exactly the
non-constructor functions). -/
structure JsonAbiM where
  ctor : Option ConstructorM
  functions : List FunctionM
deriving DecidableEq, Repr

/-- `JsonAbi::new()`. -/
def emptyAbi : JsonAbiM := ⟨none, []⟩

/-! ## Stable sort by a boolean comparator (model of Rust `sort_by`) -/

/-- Insert before the first element the new one compares `le` to
(stable insertion). -/
def insertLe (le : α → α → Bool) (a : α) : List α → List α
  | [] => [a]
  | b :: l => if le a b then a :: b :: l else b :: insertLe le a l

/-- Stable sort by a boolean comparator; Rust `sort_by(c)` corresponds to
`sortByLe (fun a b => c a b ≠ Greater)`. -/
def sortByLe (le : α → α → Bool) : List α → List α
  | [] => []
  | x :: xs => insertLe le x (sortByLe le xs)

/-! ## `method_list.rs` -/

/-- `method_list.rs::MethodSelection`. -/
inductive MethodSelection where
  | constructorSel
  | functionSel (f : FunctionM)
deriving DecidableEq, Repr

/-- `method_list.rs::MethodDisplay`. -/
structure MethodDisplay where
  label : String
  tag : String
  selection : MethodSelection
deriving DecidableEq, Repr

/-- `method_list.rs::format_params`. -/
def format_params (params : List ParamM) : String :=
  String.intercalate ", "
    (params.map fun p => if p.name = "" then p.ty else p.name ++ ": " ++ p.ty)

/-- `method_list.rs::format_outputs`. -/
def format_outputs (outputs : List ParamM) : String :=
  match outputs with
  | [] => ""
  | [o] => o.ty
  | _ => "(" ++ String.intercalate ", " (outputs.map (·.ty)) ++ ")"

/-- Is the function read-only (`view` or `pure`)? -/
def isViewOrPure (f : FunctionM) : Bool :=
  match f.state_mutability with
  | .view => true
  | .pureM => true
  | _ => false

/-- The `sort_by` comparator of `list_methods` as a `le` test:
read-only functions first, then by name. -/
def methodLeB (a b : FunctionM) : Bool :=
  match isViewOrPure a, isViewOrPure b with
  | true, false => true
  | false, true => false
  | _, _ => strLe a.name b.name

/-- The `[tag]` shown for a function. -/
def methodTag (f : FunctionM) : String :=
  match f.state_mutability with
  | .view => "view"
  | .pureM => "view"
  | .payable => "payable"
  | .nonpayable => "send"

/-- The display label of a function. -/
def methodLabel (f : FunctionM) : String :=
  let params := format_params f.inputs
  let returns := format_outputs f.outputs
  if returns = "" then f.name ++ "(" ++ params ++ ")"
  else f.name ++ "(" ++ params ++ ") -> " ++ returns

/-- `method_list.rs::list_methods`. -/
def list_methods (abi : JsonAbiM) (include_constructor : Bool) :
    List MethodDisplay :=
  let base :=
    if include_constructor then
      let label :=
        match abi.ctor with
        | some c => "constructor(" ++ format_params c.inputs ++ ")"
        | none => "constructor()"
      [⟨label, "deploy", .constructorSel⟩]
    else []
  base ++
    (sortByLe methodLeB abi.functions).map fun f =>
      ⟨methodLabel f, methodTag f, .functionSel f⟩

/-! ## Tree builder (`app.rs::build_tree_nodes` and its helpers) -/

/-- `contract_tree::TreeNode`. -/
inductive TreeNodeM where
  | newContract
  | contract (name : String) (path : String)
  | constructorNode (contract_name : String) (contract_path : String)
      (abi : JsonAbiM)
  | loadExistingInstance (contract_name : String) (contract_path : String)
      (abi : JsonAbiM)
  | deployedInstance (address : AddressStr) (contract_name : String)
      (contract_path : String)
  | method (function : FunctionM) (tag : String)
      (instance_address : AddressStr)
deriving DecidableEq, Repr

/-- `compile.rs::CompiledContract` (bytecode as raw bytes). -/
structure CompiledContractM where
  name : String
  abi : JsonAbiM
  bytecode : List Nat
deriving DecidableEq, Repr

/-- Generic first-match association-list lookup (`HashMap::get`). -/
def alistFind {α : Type} : List (String × α) → String → Option α
  | [], _ => none
  | (k', v) :: rest, k => if k' = k then some v else alistFind rest k

/-- The slice of `App` state that the tree builder reads; `loader` is the
external `compile::load_contract_abi` toolchain call. -/
structure AppM where
  store : DeploymentStoreM
  contract : Option CompiledContractM
  contract_path : Option String
  expanded_contracts : List (String × String)
  expanded_instances : List AddressStr
  abi_cache : List (String × List (String × JsonAbiM))
  loader : String → Option (List (String × JsonAbiM))

/-- `App::load_contract_abi_cached`: cache hit, else invoke the toolchain
(the Rust then memoizes the result, which does not change the value
returned). -/
def load_contract_abi_cached (app : AppM) (path : String) :
    Option (List (String × JsonAbiM)) :=
  match alistFind app.abi_cache path with
  | some cached => some cached
  | none => app.loader path

/-- `App::get_abi_for_contract`: current-contract fast path, else the cached
load's entry with a matching name, else an empty ABI. -/
def get_abi_for_contract (canon : String → Option String) (app : AppM)
    (id : ContractId) : JsonAbiM :=
  let fallback :=
    match load_contract_abi_cached app id.path with
    | some contracts =>
      match contracts.find? (fun nc => nc.1 == id.name) with
      | some nc => nc.2
      | none => emptyAbi
    | none => emptyAbi
  match app.contract_path, app.contract with
  | some cp, some c =>
    if ((canon cp).getD cp == (canon id.path).getD id.path)
        && (c.name == id.name) then
      c.abi
    else fallback
  | _, _ => fallback

/-- The `sort_by` comparator of `build_tree_nodes` as a `le` test:
by path, then by name. -/
def contractIdLeB (a b : ContractId) : Bool :=
  if a.path = b.path then strLe a.name b.name else strLt a.path b.path

/-- The method nodes pushed for one expanded instance (the inner
`for method in methods` loop). -/
def methodNodesFor (abi : JsonAbiM) (addr : AddressStr) : List TreeNodeM :=
  (list_methods abi false).foldl
    (fun acc md =>
      match md.selection with
      | .functionSel f => acc ++ [.method f md.tag addr]
      | .constructorSel => acc)
    []

/-- The identity list `build_tree_nodes` sorts: registry identities, plus the
current contract when no stored identity matches it under canonicalization. -/
def contractsWithCurrent (canon : String → Option String) (app : AppM) :
    List ContractId :=
  let all0 := all_contracts app.store
  match app.contract_path, app.contract with
  | some cp, some c =>
    let cc := (canon cp).getD cp
    let isInStore := all0.any fun cid =>
      ((canon cid.path).getD cid.path == cc) && (cid.name == c.name)
    if isInStore then all0 else all0 ++ [⟨cc, c.name⟩]
  | _, _ => all0

/-- `app.rs::build_tree_nodes`, with the `Vec::push` loops rendered as left
folds over an accumulator. -/
def build_tree_nodes (canon : String → Option String) (app : AppM) :
    List TreeNodeM :=
  let nodes : List TreeNodeM := [.newContract]
  let sorted := sortByLe contractIdLeB (contractsWithCurrent canon app)
  sorted.foldl
    (fun nodes cid =>
      let abi := get_abi_for_contract canon app cid
      let nodes := nodes ++ [.contract cid.name cid.path]
      if (cid.path, cid.name) ∈ app.expanded_contracts then
        let nodes := nodes ++
          [.constructorNode cid.name cid.path abi,
           .loadExistingInstance cid.name cid.path abi]
        (get_deployments canon app.store cid).foldl
          (fun nodes addr =>
            let nodes := nodes ++ [.deployedInstance addr cid.name cid.path]
            if addr ∈ app.expanded_instances then
              nodes ++ methodNodesFor abi addr
            else nodes)
          nodes
      else nodes)
    nodes

/-! ## Session state machine (the slice of `tui/state.rs` and `app.rs` the
popup-key handlers touch) -/

/-- `tui/state.rs::Focus`. -/
inductive FocusM where
  | sidebar
  | output
  | commandPalette
deriving DecidableEq, Repr

/-- `tui/state.rs::FieldState`. -/
structure FieldStateM where
  value : String
  error : Option String
deriving DecidableEq, Repr

/-- `compile.rs::BytecodeTarget`. -/
inductive BytecodeTargetM where
  | evm
  | pvm
deriving DecidableEq, Repr

/-- `cards.rs::TracerType`. -/
inductive TracerTypeM where
  | call
  | prestate
  | execution
deriving DecidableEq, Repr

/-- `cards.rs::CopyOption`. -/
inductive CopyOptionM where
  | hash
  | addressOpt
deriving DecidableEq, Repr

/-- `cards.rs::TracerConfig`. -/
structure TracerConfigM where
  tracer_type : TracerTypeM
  with_logs : Bool
  only_top_call : Bool
  diff_mode : Bool
  enable_memory : Bool
  disable_stack : Bool
  disable_storage : Bool
deriving DecidableEq, Repr

/-- `widgets::PathSuggestion`. -/
structure PathSuggestionM where
  display_name : String
  full_path : String
  is_directory : Bool
  is_sol_file : Bool
deriving DecidableEq, Repr

/-- `tui/state.rs::PopupState`. -/
inductive PopupStateM where
  | none
  | commandPalette (query : String) (selected : Nat)
  | parameterPopup (method_name : String) (params : List ParamM)
      (fields : List FieldStateM) (current : Nat)
      (bytecode_target : Option BytecodeTargetM)
  | contractSelector (contracts : List String) (selected : Nat)
  | filePicker (path : String) (error : Option String)
  | addressInput (address : String) (error : Option String)
  | tracerMenu (card_index : Nat) (tracers : List TracerTypeM)
      (selected : Nat)
  | tracerConfig (card_index : Nat) (config : TracerConfigM) (current : Nat)
  | copyMenu (card_index : Nat) (options : List CopyOptionM) (selected : Nat)
deriving DecidableEq, Repr

/-- `app.rs::PendingAction`. -/
inductive PendingActionM where
  | none
  | deploy (contract_name : String) (contract_path : String) (abi : JsonAbiM)
  | callMethod (function : FunctionM) (address : AddressStr)
deriving DecidableEq, Repr

/-- The session fields read and written by the popup key handlers. -/
structure SessionM where
  focus : FocusM
  popup : PopupStateM
  pending : PendingActionM
  file_picker_suggestions : List PathSuggestionM
  file_picker_selected_idx : Nat
deriving DecidableEq, Repr

/-- The `Ctrl+P` arm of `App::handle_key`: open the command palette
(available regardless of the current focus). -/
def openCommandPalette (s : SessionM) : SessionM :=
  { s with focus := .commandPalette, popup := .commandPalette "" 0 }

/-- The `Esc` arm of each popup's key handler, combined over the active
popup (each branch is the corresponding `KeyCode::Esc` arm in `app.rs`).
With no popup active, `Esc` falls through to the main handler. -/
def handleEsc (s : SessionM) : SessionM :=
  match s.popup with
  | .none => s
  | .commandPalette _ _ => { s with popup := .none, focus := .sidebar }
  | .parameterPopup _ _ _ _ _ =>
    { s with popup := .none, focus := .sidebar, pending := .none }
  | .contractSelector _ _ => { s with popup := .none, focus := .sidebar }
  | .filePicker _ _ =>
    { s with popup := .none, focus := .sidebar,
             file_picker_suggestions := [], file_picker_selected_idx := 0 }
  | .addressInput _ _ => { s with popup := .none, focus := .sidebar }
  | .tracerMenu _ _ _ => { s with popup := .none, focus := .output }
  | .tracerConfig _ _ _ => { s with popup := .none, focus := .output }
  | .copyMenu _ _ _ => { s with popup := .none, focus := .output }

/-! ## Parameter popup submission (`try_parse_params` and the `Enter` arm of
`handle_parameter_popup_key`) -/

/-- `app.rs::try_parse_params`: parse every field against its parameter's
declared type; all values in order on success, else all `(index, message)`
pairs. -/
def try_parse_params (params : List ParamM) (fields : List FieldStateM) :
    Except (List (Nat × String)) (List SolValue) :=
  let res :=
    (params.zip fields).enum.foldl
      (fun (acc : List SolValue × List (Nat × String)) ipf =>
        match parse_value ipf.2.2.value ipf.2.1.ty with
        | .ok v => (acc.1 ++ [v], acc.2)
        | .error e => (acc.1, acc.2 ++ [(ipf.1, e)]))
      ([], [])
  if res.2.isEmpty then .ok res.1 else .error res.2

/-- The per-field error updates on a failed submission
(`fields.get_mut(i)` then `field.error = Some(err)`). -/
def applyFieldErrors (fields : List FieldStateM)
    (errs : List (Nat × String)) : List FieldStateM :=
  errs.foldl
    (fun fs ie =>
      match fs[ie.1]? with
      | some f => fs.set ie.1 { f with error := some ie.2 }
      | none => fs)
    fields

/-- What the action executor is invoked with after a successful submission. -/
inductive DispatchedOp where
  | deployOp (contract_name : String) (contract_path : String)
      (abi : JsonAbiM) (args : List SolValue) (target : BytecodeTargetM)
  | callOp (function : FunctionM) (address : AddressStr)
      (args : List SolValue)
deriving DecidableEq, Repr

/-- The `Enter` arm of `app.rs::handle_parameter_popup_key`: parse all
fields; on success close the popup, clear the pending action and dispatch
it; on failure keep the popup open and annotate the failing fields. -/
def handleParameterPopupEnter (s : SessionM) :
    SessionM × Option DispatchedOp :=
  match s.popup with
  | .parameterPopup method_name params fields current target =>
    match try_parse_params params fields with
    | .ok args =>
      let action := s.pending
      let s' := { s with popup := .none, focus := .sidebar,
                         pending := .none }
      match action with
      | .deploy n p abi =>
        (s', some (.deployOp n p abi args (target.getD .evm)))
      | .callMethod f a => (s', some (.callOp f a args))
      | .none => (s', Option.none)
    | .error errs =>
      ({ s with popup := .parameterPopup method_name params
                  (applyFieldErrors fields errs) current target },
       Option.none)
  | _ => (s, Option.none)

/-! ## Deploy workflow (`app.rs::do_deploy`) -/

/-- The receipt fields `do_deploy` inspects. -/
structure ReceiptM where
  contract_address : Option AddressStr
  status : Bool
deriving DecidableEq, Repr

/-- The outcomes of the external calls `do_deploy` makes, in order:
the RPC connection check, the toolchain compile, the transaction send, and
the receipt wait. -/
structure DeployEnvM where
  connected : Bool
  compile_result : Except String (List Nat)
  send_result : Except String String
  receipt_result : Except String ReceiptM

/-- How a `do_deploy` run ended (each constructor is one early `return` or
the final success path of the Rust function). -/
inductive DeployOutcome where
  | notConnected
  | compileFailed
  | sendFailed
  | receiptFailed
  | noAddress
  | reverted (addr : AddressStr)
  | deployed (addr : AddressStr)
deriving DecidableEq, Repr

/-- `app.rs::do_deploy`, projected onto its registry effect: the outcome,
the store afterwards, and whether `store.save()` was invoked.  Output lines,
cards, sidebar selection and balance refresh are display-only. -/
def do_deploy (canon : String → Option String) (env : DeployEnvM)
    (store : DeploymentStoreM) (contract_name : String)
    (contract_path : String) :
    DeployOutcome × DeploymentStoreM × Bool :=
  if !env.connected then (.notConnected, store, false)
  else
    match env.compile_result with
    | .error _ => (.compileFailed, store, false)
    | .ok _ =>
      match env.send_result with
      | .error _ => (.sendFailed, store, false)
      | .ok _ =>
        match env.receipt_result with
        | .error _ => (.receiptFailed, store, false)
        | .ok r =>
          match r.contract_address with
          | Option.none => (.noAddress, store, false)
          | some addr =>
            if !r.status then (.reverted addr, store, false)
            else
              (.deployed addr,
               add_deployment canon store ⟨contract_path, contract_name⟩ addr,
               true)

/-! ## Spec-side combinators for the tree shape (stated from the spec's
description of the builder output; compared with `build_tree_nodes` in C4) -/

/-- Spec-side: the nodes under one deployed instance — the instance node,
then its method nodes when the instance is expanded. -/
def instanceBlock (app : AppM) (abi : JsonAbiM) (cid : ContractId)
    (addr : AddressStr) : List TreeNodeM :=
  .deployedInstance addr cid.name cid.path ::
    (if addr ∈ app.expanded_instances then methodNodesFor abi addr else [])

/-- Spec-side: the nodes under one identity — a Contract node, then, when
the identity is expanded, a Constructor node, a LoadExistingInstance node
and one block per deployed address in stored order. -/
def contractBlock (canon : String → Option String) (app : AppM)
    (cid : ContractId) : List TreeNodeM :=
  let abi := get_abi_for_contract canon app cid
  .contract cid.name cid.path ::
    (if (cid.path, cid.name) ∈ app.expanded_contracts then
      [.constructorNode cid.name cid.path abi,
       .loadExistingInstance cid.name cid.path abi] ++
        (get_deployments canon app.store cid).flatMap (instanceBlock app abi cid)
    else [])

/-! ## Association-list lemmas -/

theorem findEntry_setEntry_self (m : Deployments) (k : String)
    (v : List String) : findEntry (setEntry m k v) k = some v := by
  induction m with
  | nil => simp [setEntry, findEntry]
  | cons p rest ih =>
    obtain ⟨k', v'⟩ := p
    by_cases h : k' = k
    · simp [setEntry, findEntry, h]
    · simp [setEntry, findEntry, h, ih]

theorem findEntry_setEntry_ne (m : Deployments) (k k' : String)
    (v : List String) (h : k' ≠ k) :
    findEntry (setEntry m k v) k' = findEntry m k' := by
  induction m with
  | nil => simp [setEntry, findEntry, Ne.symm h]
  | cons p rest ih =>
    obtain ⟨k₀, v₀⟩ := p
    by_cases hk : k₀ = k
    · subst hk
      simp [setEntry, findEntry, Ne.symm h]
    · simp only [setEntry, if_neg hk, findEntry]
      by_cases hk' : k₀ = k'
      · simp [hk']
      · simp [hk', ih]

theorem setEntry_setEntry (m : Deployments) (k : String)
    (v w : List String) : setEntry (setEntry m k v) k w = setEntry m k w := by
  induction m with
  | nil => simp [setEntry]
  | cons p rest ih =>
    obtain ⟨k₀, v₀⟩ := p
    by_cases hk : k₀ = k
    · simp [setEntry, hk]
    · simp [setEntry, hk, ih]

theorem mem_keys_setEntry (m : Deployments) (k : String) (v : List String) :
    k ∈ (setEntry m k v).map Prod.fst := by
  induction m with
  | nil => simp [setEntry]
  | cons p rest ih =>
    obtain ⟨k₀, v₀⟩ := p
    by_cases hk : k₀ = k
    · simp [setEntry, hk]
    · simp only [setEntry, if_neg hk, List.map_cons, List.mem_cons]
      exact Or.inr ih

/-- C7 — `add_deployment` is an idempotent append-if-absent: adding twice
equals adding once; a fresh entry becomes the one-element list; an existing
entry gains the address only when absent (so duplicate-freeness in insertion
order is preserved); other entries are untouched. -/
theorem add_deployment_idempotent (canon : String → Option String)
    (store : DeploymentStoreM) (id : ContractId) (addr : AddressStr) :
    add_deployment canon (add_deployment canon store id addr) id addr
      = add_deployment canon store id addr
    ∧ (findEntry store.deployments (id.toKey canon) = none →
        findEntry (add_deployment canon store id addr).deployments
          (id.toKey canon) = some [addr])
    ∧ (∀ e, findEntry store.deployments (id.toKey canon) = some e →
        findEntry (add_deployment canon store id addr).deployments
            (id.toKey canon) = some (if addr ∈ e then e else e ++ [addr])
          ∧ (e.Nodup → (if addr ∈ e then e else e ++ [addr]).Nodup))
    ∧ (∀ k, k ≠ id.toKey canon →
        findEntry (add_deployment canon store id addr).deployments k
          = findEntry store.deployments k) := by
  refine ⟨?_, ?_, ?_, ?_⟩
  · by_cases hm : addr ∈ (findEntry store.deployments (id.toKey canon)).getD []
    · simp [add_deployment, findEntry_setEntry_self, setEntry_setEntry, hm]
    · simp [add_deployment, findEntry_setEntry_self, setEntry_setEntry, hm]
  · intro h
    simp [add_deployment, findEntry_setEntry_self, h]
  · intro e h
    refine ⟨?_, ?_⟩
    · simp [add_deployment, findEntry_setEntry_self, h]
    · intro hnd
      by_cases hm : addr ∈ e
      · simpa [hm] using hnd
      · simp [hm, List.nodup_append, hnd]
  · intro k hk
    show findEntry (setEntry store.deployments (id.toKey canon) _) k = _
    exact findEntry_setEntry_ne _ _ _ _ hk

/-- C7 witness: adding the same address twice to a fresh store leaves a
one-element entry. -/
theorem add_deployment_idempotent_witness :
    add_deployment (fun _ => none)
        (add_deployment (fun _ => none) ⟨[]⟩ ⟨"a.sol", "Foo"⟩ "0xaa")
        ⟨"a.sol", "Foo"⟩ "0xaa"
      = add_deployment (fun _ => none) ⟨[]⟩ ⟨"a.sol", "Foo"⟩ "0xaa"
    ∧ findEntry (add_deployment (fun _ => none) ⟨[]⟩
        ⟨"a.sol", "Foo"⟩ "0xaa").deployments
        (ContractId.toKey (fun _ => none) ⟨"a.sol", "Foo"⟩) = some ["0xaa"] :=
  ⟨(add_deployment_idempotent (fun _ => none) ⟨[]⟩ ⟨"a.sol", "Foo"⟩ "0xaa").1,
   (add_deployment_idempotent (fun _ => none) ⟨[]⟩ ⟨"a.sol", "Foo"⟩
      "0xaa").2.1 rfl⟩

/-- C6 — two `ContractId`s with the same name whose paths canonicalize to
the same path produce the same storage key, hence every registry operation
treats them as one identity; in particular an `add_deployment` under one is
visible to `get_deployments` under the other. -/
theorem registry_canonical_identity (canon : String → Option String)
    (p₁ p₂ c n : String) (store : DeploymentStoreM) (a : AddressStr)
    (h₁ : canon p₁ = some c) (h₂ : canon p₂ = some c)
    (ha : parseAddress a = some a) :
    ContractId.toKey canon ⟨p₁, n⟩ = ContractId.toKey canon ⟨p₂, n⟩
    ∧ a ∈ get_deployments canon
        (add_deployment canon store ⟨p₁, n⟩ a) ⟨p₂, n⟩ := by
  have hkey : ContractId.toKey canon ⟨p₁, n⟩
      = ContractId.toKey canon ⟨p₂, n⟩ := by
    simp [ContractId.toKey, h₁, h₂]
  refine ⟨hkey, ?_⟩
  simp only [get_deployments, add_deployment, ← hkey, findEntry_setEntry_self,
    Option.getD_some]
  by_cases hm : a ∈
      (findEntry store.deployments (ContractId.toKey canon ⟨p₁, n⟩)).getD []
  · exact List.mem_filterMap.mpr ⟨a, by simp [hm], ha⟩
  · exact List.mem_filterMap.mpr ⟨a, by simp [hm], ha⟩

/-- C6 witness: a relative and an absolute spelling of the same file. -/
theorem registry_canonical_identity_witness :
    ContractId.toKey
        (fun p => if p = "./a.sol" ∨ p = "/x/a.sol" then some "/x/a.sol"
                  else none) ⟨"./a.sol", "Foo"⟩
      = ContractId.toKey
          (fun p => if p = "./a.sol" ∨ p = "/x/a.sol" then some "/x/a.sol"
                    else none) ⟨"/x/a.sol", "Foo"⟩
    ∧ "0xabababababababababababababababababababab" ∈
        get_deployments
          (fun p => if p = "./a.sol" ∨ p = "/x/a.sol" then some "/x/a.sol"
                    else none)
          (add_deployment
            (fun p => if p = "./a.sol" ∨ p = "/x/a.sol" then some "/x/a.sol"
                      else none)
            ⟨[]⟩ ⟨"./a.sol", "Foo"⟩
            "0xabababababababababababababababababababab")
          ⟨"/x/a.sol", "Foo"⟩ :=
  registry_canonical_identity _ "./a.sol" "/x/a.sol" "/x/a.sol" "Foo" ⟨[]⟩
    "0xabababababababababababababababababababab" (by simp) (by simp) (by rfl)

/-- C10 — `get_deployments` is total: an absent entry yields `[]`, and a
present entry yields exactly its stored strings that parse as 20-byte hex
addresses, in stored order, silently dropping malformed strings. -/
theorem get_deployments_total_filter (canon : String → Option String)
    (store : DeploymentStoreM) (id : ContractId) :
    (findEntry store.deployments (id.toKey canon) = none →
      get_deployments canon store id = [])
    ∧ get_deployments canon store id
        = ((findEntry store.deployments (id.toKey canon)).getD
            []).filterMap parseAddress
    ∧ (∀ s : String, (parseAddress s).isSome = true ↔
        ((strip0x s).toList.length = 40
          ∧ ∀ c ∈ (strip0x s).toList, (hexVal c).isSome = true))
    ∧ get_deployments canon
        ⟨[(id.toKey canon,
           ["0xabababababababababababababababababababab", "garbage",
            "0xABABABABABABABABABABABABABABABABABABABAB"])]⟩ id
        = ["0xabababababababababababababababababababab",
           "0xabababababababababababababababababababab"] := by
  refine ⟨?_, rfl, ?_, ?_⟩
  · intro h
    simp [get_deployments, h]
  · intro s
    simp [parseAddress, apply_ite Option.isSome, Bool.and_eq_true,
      List.all_eq_true, beq_iff_eq]
  · simp only [get_deployments, findEntry, eq_self_iff_true, if_true]
    rfl

/-! ## Key round-trip lemmas -/

theorem lastColonSplit_eq_none {cs : List Char}
    (h : lastColonSplit cs = none) : ':' ∉ cs := by
  induction cs with
  | nil => simp
  | cons c rest ih =>
    intro hmem
    rcases List.mem_cons.mp hmem with hc | hc
    · subst hc
      unfold lastColonSplit at h
      rcases hsplit : lastColonSplit rest with _ | ⟨p, n⟩ <;>
        simp [hsplit] at h
    · unfold lastColonSplit at h
      rcases hsplit : lastColonSplit rest with _ | ⟨p, n⟩
      · exact ih hsplit hc
      · simp [hsplit] at h

theorem lastColonSplit_of_no_colon {cs : List Char} (h : ':' ∉ cs) :
    lastColonSplit cs = none := by
  induction cs with
  | nil => rfl
  | cons c rest ih =>
    have hc : c ≠ ':' := fun hc => h (hc ▸ List.mem_cons_self c rest)
    have hr : ':' ∉ rest := fun hm => h (List.mem_cons_of_mem c hm)
    unfold lastColonSplit
    rw [ih hr]
    simp [hc]

theorem lastColonSplit_append (p n : List Char) (hn : ':' ∉ n) :
    lastColonSplit (p ++ ':' :: n) = some (p, n) := by
  induction p with
  | nil =>
    show lastColonSplit (':' :: n) = _
    unfold lastColonSplit
    rw [lastColonSplit_of_no_colon hn]
    simp
  | cons c p' ih =>
    show lastColonSplit (c :: (p' ++ ':' :: n)) = _
    unfold lastColonSplit
    rw [ih]

theorem lastColonSplit_sound {cs p n : List Char}
    (h : lastColonSplit cs = some (p, n)) :
    cs = p ++ ':' :: n ∧ ':' ∉ n := by
  induction cs generalizing p n with
  | nil => simp [lastColonSplit] at h
  | cons c rest ih =>
    unfold lastColonSplit at h
    rcases hsplit : lastColonSplit rest with _ | ⟨p', n'⟩
    · rw [hsplit] at h
      by_cases hc : c = ':'
      · simp [hc] at h
        obtain ⟨hp, hnn⟩ := h
        subst hp; subst hnn; subst hc
        exact ⟨rfl, lastColonSplit_eq_none hsplit⟩
      · simp [hc] at h
    · rw [hsplit] at h
      simp at h
      obtain ⟨hp, hnn⟩ := h
      subst hp; subst hnn
      obtain ⟨hrest, hcolon⟩ := ih hsplit
      exact ⟨by rw [hrest]; rfl, hcolon⟩

theorem string_toList_append (a b : String) :
    (a ++ b).toList = a.toList ++ b.toList :=
  String.data_append a b

theorem toKey_toList (canon : String → Option String) (id : ContractId) :
    (id.toKey canon).toList
      = ((canon id.path).getD id.path).toList ++ ':' :: id.name.toList := by
  show (((canon id.path).getD id.path ++ ":") ++ id.name).toList = _
  rw [string_toList_append, string_toList_append, List.append_assoc]
  rfl

theorem fromKey_toKey (canon : String → Option String) (id : ContractId)
    (hname : id.name ≠ "") (hcolon : ':' ∉ id.name.toList) :
    ContractId.fromKey (id.toKey canon)
      = some ⟨(canon id.path).getD id.path, id.name⟩ := by
  unfold ContractId.fromKey
  rw [toKey_toList, lastColonSplit_append _ _ hcolon]
  have hne : id.name.toList.isEmpty = false :=
    List.isEmpty_eq_false.mpr fun hnil => hname (String.ext hnil)
  simp only [hne, Bool.false_eq_true, if_false]
  rfl

theorem fromKey_sound {k : String} {cid : ContractId}
    (h : ContractId.fromKey k = some cid) :
    k.toList = cid.path.toList ++ ':' :: cid.name.toList
      ∧ ':' ∉ cid.name.toList := by
  unfold ContractId.fromKey at h
  rcases hsplit : lastColonSplit k.toList with _ | ⟨p, n⟩
  · rw [hsplit] at h; simp at h
  · rw [hsplit] at h
    by_cases hn : n.isEmpty
    · simp [hn] at h
    · simp [hn] at h
      obtain ⟨hs, hcolon⟩ := lastColonSplit_sound hsplit
      rw [← h]
      exact ⟨hs, hcolon⟩

theorem findEntry_removeKey (m : Deployments) (k : String) :
    findEntry (removeKey m k) k = none := by
  induction m with
  | nil => rfl
  | cons p rest ih =>
    obtain ⟨k₀, v₀⟩ := p
    by_cases hk : k₀ = k
    · simpa [removeKey, hk] using ih
    · simpa [removeKey, findEntry, hk] using ih

/-- C8 counterexample — for a `ContractId` with an empty name,
`remove_deployment` of the last address returns `true` and keeps the entry,
but the identity does NOT appear in `all_contracts`: its key `"p:"` has an
empty name part, which `from_key` rejects. -/
theorem remove_last_deployment_cex :
    (remove_deployment (fun _ => none) ⟨[("p:", ["0xaa"])]⟩
        ⟨"p", ""⟩ "0xaa").2 = true
    ∧ findEntry (remove_deployment (fun _ => none) ⟨[("p:", ["0xaa"])]⟩
        ⟨"p", ""⟩ "0xaa").1.deployments
        (ContractId.toKey (fun _ => none) ⟨"p", ""⟩) = some []
    ∧ all_contracts (remove_deployment (fun _ => none) ⟨[("p:", ["0xaa"])]⟩
        ⟨"p", ""⟩ "0xaa").1 = [] :=
  ⟨rfl, rfl, rfl⟩

/-- C8 (amended) — for an identity whose name is non-empty and colon-free:
removing the last remaining address returns `true` and preserves the entry
as an empty list, with the identity still listed by `all_contracts`, while
`remove_contract` deletes the entry and the identity disappears; and in
general `remove_deployment` returns `true` iff the address was present,
`remove_contract` iff the entry was. -/
theorem remove_deployment_vs_remove_contract (canon : String → Option String)
    (store : DeploymentStoreM) (id : ContractId) (addr : AddressStr)
    (hname : id.name ≠ "") (hcolon : ':' ∉ id.name.toList)
    (hentry : findEntry store.deployments (id.toKey canon) = some [addr]) :
    (remove_deployment canon store id addr).2 = true
    ∧ findEntry (remove_deployment canon store id addr).1.deployments
        (id.toKey canon) = some []
    ∧ (⟨(canon id.path).getD id.path, id.name⟩ : ContractId) ∈
        all_contracts (remove_deployment canon store id addr).1
    ∧ (remove_contract canon store id).2 = true
    ∧ findEntry (remove_contract canon store id).1.deployments
        (id.toKey canon) = none
    ∧ (⟨(canon id.path).getD id.path, id.name⟩ : ContractId) ∉
        all_contracts (remove_contract canon store id).1
    ∧ (∀ (st : DeploymentStoreM) (ad : AddressStr),
        (remove_deployment canon st id ad).2 = true ↔
          ∃ e, findEntry st.deployments (id.toKey canon) = some e ∧ ad ∈ e)
    ∧ (∀ st : DeploymentStoreM,
        (remove_contract canon st id).2 = true ↔
          (findEntry st.deployments (id.toKey canon)).isSome = true) := by
  have hrd : remove_deployment canon store id addr
      = (⟨setEntry store.deployments (id.toKey canon) []⟩, true) := by
    simp [remove_deployment, hentry]
  have hrc : remove_contract canon store id
      = (⟨removeKey store.deployments (id.toKey canon)⟩, true) := by
    simp [remove_contract, hentry]
  refine ⟨by rw [hrd], ?_, ?_, by rw [hrc], ?_, ?_, ?_, ?_⟩
  · rw [hrd]
    exact findEntry_setEntry_self _ _ _
  · rw [hrd]
    exact List.mem_filterMap.mpr
      ⟨id.toKey canon, mem_keys_setEntry _ _ _, fromKey_toKey canon id hname hcolon⟩
  · rw [hrc]
    exact findEntry_removeKey _ _
  · rw [hrc]
    intro hmem
    obtain ⟨k', hk'mem, hk'⟩ := List.mem_filterMap.mp hmem
    have hsound := (fromKey_sound hk').1
    have hkey : k' = id.toKey canon := by
      apply String.ext
      show k'.toList = (ContractId.toKey canon id).toList
      exact hsound.trans (toKey_toList canon id).symm
    rw [hkey] at hk'mem
    obtain ⟨pair, hpair, hfst⟩ := List.mem_map.mp hk'mem
    have hne : pair.1 ≠ id.toKey canon := by
      have hmf := List.mem_filter.mp hpair
      simpa using hmf.2
    exact hne (by rw [hfst])
  · intro st ad
    rcases hf : findEntry st.deployments (id.toKey canon) with _ | e
    · simp [remove_deployment, hf]
    · by_cases hm : ad ∈ e
      · simp [remove_deployment, hf, hm]
      · simp [remove_deployment, hf, hm]
  · intro st
    rcases hf : findEntry st.deployments (id.toKey canon) with _ | e
    · simp [remove_contract, hf]
    · simp [remove_contract, hf]

/-- C8 witness: a one-address entry under identity `(/x/a.sol, Foo)`. -/
theorem remove_deployment_vs_remove_contract_witness :
    (remove_deployment (fun _ => none)
        ⟨[("/x/a.sol:Foo", ["0xaa"])]⟩ ⟨"/x/a.sol", "Foo"⟩ "0xaa").2 = true
    ∧ (⟨"/x/a.sol", "Foo"⟩ : ContractId) ∈
        all_contracts (remove_deployment (fun _ => none)
          ⟨[("/x/a.sol:Foo", ["0xaa"])]⟩ ⟨"/x/a.sol", "Foo"⟩ "0xaa").1
    ∧ (⟨"/x/a.sol", "Foo"⟩ : ContractId) ∉
        all_contracts (remove_contract (fun _ => none)
          ⟨[("/x/a.sol:Foo", ["0xaa"])]⟩ ⟨"/x/a.sol", "Foo"⟩).1 := by
  have h := remove_deployment_vs_remove_contract (fun _ => none)
    ⟨[("/x/a.sol:Foo", ["0xaa"])]⟩ ⟨"/x/a.sol", "Foo"⟩ "0xaa"
    (by decide) (by decide) rfl
  exact ⟨h.1, h.2.2.1, h.2.2.2.2.2.1⟩

/-- C1 — registry effect of the deploy workflow: exactly on the path where
the receipt arrives, carries a contract address and has success status, the
store becomes `add_deployment` of that address (appending it to the entry
when absent) and a save is triggered; on every other path the store is
unchanged and no save happens. -/
theorem deploy_registry_effect (canon : String → Option String)
    (env : DeployEnvM) (store : DeploymentStoreM) (n p : String) :
    (∀ (bc : List Nat) (tx : String) (r : ReceiptM) (addr : AddressStr),
      env.connected = true →
      env.compile_result = .ok bc →
      env.send_result = .ok tx →
      env.receipt_result = .ok r →
      r.contract_address = some addr →
      r.status = true →
      do_deploy canon env store n p
        = (.deployed addr, add_deployment canon store ⟨p, n⟩ addr, true)
      ∧ (addr ∉ (findEntry store.deployments
            (ContractId.toKey canon ⟨p, n⟩)).getD [] →
          findEntry (add_deployment canon store ⟨p, n⟩ addr).deployments
              (ContractId.toKey canon ⟨p, n⟩)
            = some ((findEntry store.deployments
                (ContractId.toKey canon ⟨p, n⟩)).getD [] ++ [addr])))
    ∧ (∀ (o : DeployOutcome) (s' : DeploymentStoreM) (saved : Bool),
        do_deploy canon env store n p = (o, s', saved) →
        (∀ a, o ≠ .deployed a) → s' = store ∧ saved = false) := by
  constructor
  · intro bc tx r addr hconn hcomp hsend hrec haddr hstat
    constructor
    · simp [do_deploy, hconn, hcomp, hsend, hrec, haddr, hstat]
    · intro hmem
      simp [add_deployment, findEntry_setEntry_self, hmem]
  · intro o s' saved heq hne
    rcases env with ⟨conn, cr, sr, rr⟩
    cases conn
    · simp [do_deploy] at heq
      exact ⟨heq.2.1.symm, heq.2.2⟩
    · cases cr with
      | error e =>
        simp [do_deploy] at heq
        exact ⟨heq.2.1.symm, heq.2.2⟩
      | ok bc =>
        cases sr with
        | error e =>
          simp [do_deploy] at heq
          exact ⟨heq.2.1.symm, heq.2.2⟩
        | ok tx =>
          cases rr with
          | error e =>
            simp [do_deploy] at heq
            exact ⟨heq.2.1.symm, heq.2.2⟩
          | ok r =>
            rcases r with ⟨ca, st⟩
            cases ca with
            | none =>
              simp [do_deploy] at heq
              exact ⟨heq.2.1.symm, heq.2.2⟩
            | some a =>
              cases st
              · simp [do_deploy] at heq
                exact ⟨heq.2.1.symm, heq.2.2⟩
              · simp [do_deploy] at heq
                exact absurd heq.1.symm (hne a)

/-- C1 witness: a connected, fully successful deploy run. -/
theorem deploy_registry_effect_witness :
    do_deploy (fun _ => none)
        ⟨true, .ok [], .ok "0xhash", .ok ⟨some "0xaa", true⟩⟩
        ⟨[]⟩ "Foo" "a.sol"
      = (.deployed "0xaa",
         add_deployment (fun _ => none) ⟨[]⟩ ⟨"a.sol", "Foo"⟩ "0xaa", true) :=
  ((deploy_registry_effect (fun _ => none)
      ⟨true, .ok [], .ok "0xhash", .ok ⟨some "0xaa", true⟩⟩
      ⟨[]⟩ "Foo" "a.sol").1 [] "0xhash" ⟨some "0xaa", true⟩ "0xaa"
    rfl rfl rfl rfl rfl rfl).1

/-- C5 counterexample — `Esc` does not restore the focus the session had
before the popup opened: opening the command palette from `Output` focus and
pressing `Esc` lands on `Sidebar`; and a command palette opened while a
pending action was set leaves that pending action in place. -/
theorem esc_restores_focus_cex :
    (handleEsc (openCommandPalette
        ⟨.output, .none, .none, [], 0⟩)).focus
      ≠ (⟨.output, .none, .none, [], 0⟩ : SessionM).focus
    ∧ (handleEsc ⟨.commandPalette, .commandPalette "" 0,
        .deploy "Foo" "p" emptyAbi, [], 0⟩).pending ≠ .none := by
  constructor <;> decide

/-- C5 (amended) — `Esc` with any active popup closes it, but sets a fixed
focus depending on the popup kind (`Output` for the tracer and copy menus,
`Sidebar` for the rest) rather than restoring the prior focus, and resets
the pending action only from the `ParameterPopup` handler. -/
theorem esc_closes_popup_fixed_focus (s : SessionM)
    (h : s.popup ≠ .none) :
    (handleEsc s).popup = .none
    ∧ (handleEsc s).focus =
        (match s.popup with
         | .tracerMenu _ _ _ => .output
         | .tracerConfig _ _ _ => .output
         | .copyMenu _ _ _ => .output
         | _ => .sidebar)
    ∧ (handleEsc s).pending =
        (match s.popup with
         | .parameterPopup _ _ _ _ _ => .none
         | _ => s.pending) := by
  rcases hp : s.popup with _ | ⟨q, sel⟩ | ⟨mn, ps, fs, cur, tgt⟩
    | ⟨cs, sel⟩ | ⟨pa, er⟩ | ⟨ad, er⟩ | ⟨ci, tr, sel⟩ | ⟨ci, cfg, cur⟩
    | ⟨ci, ops, sel⟩
  · exact absurd hp h
  all_goals simp [handleEsc, hp]

/-- C5 witness: `Esc` from an open copy menu. -/
theorem esc_closes_popup_fixed_focus_witness :
    (handleEsc ⟨.output, .copyMenu 0 [] 0, .none, [], 0⟩).popup = .none
    ∧ (handleEsc ⟨.output, .copyMenu 0 [] 0, .none, [], 0⟩).focus = .output
    ∧ (handleEsc ⟨.output, .copyMenu 0 [] 0, .none, [], 0⟩).pending
        = .none :=
  esc_closes_popup_fixed_focus ⟨.output, .copyMenu 0 [] 0, .none, [], 0⟩
    (by decide)

/-- C9 — the parser checks no range against the declared bit width: any
`U256`-representable literal parses at `uint8`, tagged with width 8, and
any `I256`-representable decimal parses at `int8`. -/
theorem parser_no_range_check :
    parse_value "300" "uint8" = .ok (.uint 300 8)
    ∧ parse_value "0x1ff" "uint8" = .ok (.uint 511 8)
    ∧ parse_value "-300" "int8" = .ok (.int (-300) 8)
    ∧ (∀ (s : String) (v : Nat), startsWith0x s = false →
        parseU256Dec s = some v → parse_value s "uint8" = .ok (.uint v 8))
    ∧ (∀ (s : String) (v : Int), parseI256Dec s = some v →
        parse_value s "int8" = .ok (.int v 8)) := by
  refine ⟨rfl, rfl, rfl, ?_, ?_⟩
  · intro s v h0 hv
    simp [parse_value, show parseSolType "uint8" = some (SolType.uint 8)
      from rfl, h0, hv]
  · intro s v hv
    simp [parse_value, show parseSolType "int8" = some (SolType.int 8)
      from rfl, hv]

/-- C9 witness: `256` exceeds `2^8 - 1` yet parses at `uint8`. -/
theorem parser_no_range_check_witness :
    parse_value "256" "uint8" = .ok (.uint 256 8) :=
  parser_no_range_check.2.2.2.1 "256" 256 rfl rfl

/-! ## Parser helper lemmas -/

theorem parseAddress_isSome_iff (s : String) :
    (parseAddress s).isSome = true ↔
      ((strip0x s).toList.length = 40
        ∧ ∀ c ∈ (strip0x s).toList, (hexVal c).isSome = true) := by
  simp [parseAddress, apply_ite Option.isSome, Bool.and_eq_true,
    List.all_eq_true, beq_iff_eq]

theorem parse_value_address_isOk (s : String) :
    (parse_value s "address").isOk = (parseAddress s).isSome := by
  simp only [parse_value,
    show parseSolType "address" = some SolType.address from rfl]
  rcases parseAddress s with _ | a <;> rfl

theorem parse_value_bool_eq (s : String) :
    parse_value s "bool"
      = (if lowerStr s = "true" ∨ lowerStr s = "1" ∨ lowerStr s = "yes" then
          .ok (.bool true)
        else if lowerStr s = "false" ∨ lowerStr s = "0" ∨ lowerStr s = "no"
          then .ok (.bool false)
        else .error "Invalid boolean (use true/false)") := rfl

theorem decFoldl_none (l : List Char) :
    l.foldl
      (fun acc c =>
        match acc, decDigitVal c with
        | some a, some d => some (10 * a + d)
        | _, _ => none)
      none = none := by
  induction l with
  | nil => rfl
  | cons c rest ih =>
    rw [List.foldl_cons]
    exact ih

theorem parseDecNat_0x_cons (rest : List Char) :
    parseDecNat (String.mk ('0' :: 'x' :: rest)) = none := by
  show (if ('0' :: 'x' :: rest).isEmpty then none
    else ('0' :: 'x' :: rest).foldl _ (some 0)) = none
  rw [if_neg (by simp)]
  rw [List.foldl_cons, List.foldl_cons]
  exact decFoldl_none rest

/-- C3 — the leaf-type rules of the parameter parser: `address` succeeds
exactly on 20-byte hex addresses; `bool` maps the case-insensitive literals
`true/1/yes` and `false/0/no` and rejects the rest; `uintN` accepts decimal
and `0x`-hex while `intN` accepts decimal only; `bytes` hex-decodes with no
length constraint; `bytesN` fails exactly when the decoded length differs
from `N`; `string` is passed through verbatim; composite or unknown
descriptors give the `Unsupported type` error. -/
theorem parse_value_leaf_rules :
    parse_value "0xabababababababababababababababababababab" "address"
      = .ok (.address "0xabababababababababababababababababababab")
    ∧ parse_value "0xGG" "address" = .error "Invalid address format"
    ∧ (∀ s : String, (parse_value s "address").isOk = true ↔
        ((strip0x s).toList.length = 40
          ∧ ∀ c ∈ (strip0x s).toList, (hexVal c).isSome = true))
    ∧ parse_value "true" "bool" = parse_value "1" "bool"
    ∧ (∀ s : String, parse_value s "bool" = .ok (.bool true) ↔
        (lowerStr s = "true" ∨ lowerStr s = "1" ∨ lowerStr s = "yes"))
    ∧ (∀ s : String, parse_value s "bool" = .ok (.bool false) ↔
        (lowerStr s = "false" ∨ lowerStr s = "0" ∨ lowerStr s = "no"))
    ∧ (∀ s : String,
        ¬(lowerStr s = "true" ∨ lowerStr s = "1" ∨ lowerStr s = "yes") →
        ¬(lowerStr s = "false" ∨ lowerStr s = "0" ∨ lowerStr s = "no") →
        parse_value s "bool" = .error "Invalid boolean (use true/false)")
    ∧ (∀ (s : String) (rest : List Char) (v : Nat),
        s.toList = '0' :: 'x' :: rest →
        parseU256Hex (String.mk (trim0xChars s.toList)) = some v →
        parse_value s "uint256" = .ok (.uint v 256))
    ∧ (∀ (s : String) (v : Nat), startsWith0x s = false →
        parseU256Dec s = some v →
        parse_value s "uint256" = .ok (.uint v 256))
    ∧ (∀ (s : String) (rest : List Char), s.toList = '0' :: 'x' :: rest →
        parse_value s "int256" = .error "Invalid number")
    ∧ (∀ (s : String) (v : Int), parseI256Dec s = some v →
        parse_value s "int256" = .ok (.int v 256))
    ∧ (∀ (s : String) (bs : List Nat),
        decodeHexBytes (strip0x s).toList = some bs →
        parse_value s "bytes" = .ok (.bytes bs))
    ∧ (∀ s : String, decodeHexBytes (strip0x s).toList = none →
        parse_value s "bytes" = .error "Invalid hex string")
    ∧ (∀ (s : String) (bs : List Nat),
        decodeHexBytes (strip0x s).toList = some bs →
        ((parse_value s "bytes4").isOk = true ↔ bs.length = 4))
    ∧ (∀ s : String, parse_value s "string" = .ok (.string s))
    ∧ (∀ s t : String, parseSolType t = none →
        parse_value s t = .error ("Unsupported type: " ++ t))
    ∧ parseSolType "uint256[]" = none
    ∧ parseSolType "(uint8,bool)" = none
    ∧ parseSolType "bytes33" = none := by
  refine ⟨rfl, rfl, ?_, rfl, ?_, ?_, ?_, ?_, ?_, ?_, ?_, ?_, ?_, ?_, ?_, ?_,
    by decide, by decide, by decide⟩
  · intro s
    rw [parse_value_address_isOk]
    exact parseAddress_isSome_iff s
  · intro s
    rw [parse_value_bool_eq]
    by_cases h1 : lowerStr s = "true" ∨ lowerStr s = "1" ∨ lowerStr s = "yes"
    · simp [h1]
    · by_cases h2 : lowerStr s = "false" ∨ lowerStr s = "0"
        ∨ lowerStr s = "no" <;> simp [h1, h2]
  · intro s
    rw [parse_value_bool_eq]
    by_cases h1 : lowerStr s = "true" ∨ lowerStr s = "1" ∨ lowerStr s = "yes"
    · rw [if_pos h1]
      rcases h1 with h | h | h <;> simp [h]
    · rw [if_neg h1]
      by_cases h2 : lowerStr s = "false" ∨ lowerStr s = "0"
        ∨ lowerStr s = "no" <;> simp [h2]
  · intro s h1 h2
    rw [parse_value_bool_eq, if_neg h1, if_neg h2]
  · intro s rest v hm hv
    have hd : s.data = '0' :: 'x' :: rest := hm
    rw [hm] at hv
    simp [parse_value,
      show parseSolType "uint256" = some (SolType.uint 256) from rfl,
      startsWith0x, String.toList, hd, hv]
  · intro s v h0 hv
    simp [parse_value,
      show parseSolType "uint256" = some (SolType.uint 256) from rfl, h0, hv]
  · intro s rest hm
    have hd : s.data = '0' :: 'x' :: rest := hm
    simp [parse_value,
      show parseSolType "int256" = some (SolType.int 256) from rfl,
      parseI256Dec, String.toList, hd, parseDecNat_0x_cons]
  · intro s v hv
    simp [parse_value,
      show parseSolType "int256" = some (SolType.int 256) from rfl, hv]
  · intro s bs h
    have hd : decodeHexBytes (strip0x s).data = some bs := h
    simp [parse_value, show parseSolType "bytes" = some SolType.bytes
      from rfl, hd]
  · intro s h
    have hd : decodeHexBytes (strip0x s).data = none := h
    simp [parse_value, show parseSolType "bytes" = some SolType.bytes
      from rfl, hd]
  · intro s bs h
    have hd : decodeHexBytes (strip0x s).data = some bs := h
    simp only [parse_value,
      show parseSolType "bytes4" = some (SolType.fixedBytes 4) from rfl, hd]
    by_cases hl : bs.length = 4 <;> simp [hd, hl, Except.isOk, Except.toBool]
  · intro s
    rfl
  · intro s t h
    simp [parse_value, h]

/-- C3 witness: a `bytes` decode and a composite-type rejection. -/
theorem parse_value_leaf_rules_witness :
    parse_value "0xdead" "bytes" = .ok (.bytes [222, 173])
    ∧ parse_value "1" "uint256[]"
        = .error ("Unsupported type: " ++ "uint256[]") := by
  obtain ⟨-, -, -, -, -, -, -, -, -, -, -, hbytes, -, -, -, huns, -, -, -⟩ :=
    parse_value_leaf_rules
  exact ⟨hbytes "0xdead" [222, 173] rfl, huns "1" "uint256[]" (by decide)⟩

/-! ## Parameter-submission helper lemmas -/

/-- The error projection of one indexed `(param, field)` pair. -/
def errPart (ipf : Nat × (ParamM × FieldStateM)) : Option (Nat × String) :=
  match parse_value ipf.2.2.value ipf.2.1.ty with
  | .ok _ => none
  | .error e => some (ipf.1, e)

/-- The value projection of one indexed `(param, field)` pair. -/
def okPart (ipf : Nat × (ParamM × FieldStateM)) : Option SolValue :=
  (parse_value ipf.2.2.value ipf.2.1.ty).toOption

theorem tpp_foldl (l : List (Nat × (ParamM × FieldStateM)))
    (vs : List SolValue) (es : List (Nat × String)) :
    l.foldl
      (fun (acc : List SolValue × List (Nat × String)) ipf =>
        match parse_value ipf.2.2.value ipf.2.1.ty with
        | .ok v => (acc.1 ++ [v], acc.2)
        | .error e => (acc.1, acc.2 ++ [(ipf.1, e)]))
      (vs, es)
    = (vs ++ l.filterMap okPart, es ++ l.filterMap errPart) := by
  induction l generalizing vs es with
  | nil => simp
  | cons x xs ih =>
    rw [List.foldl_cons]
    rcases hp : parse_value x.2.2.value x.2.1.ty with e | v
    · simp only [hp, ih, List.filterMap_cons, errPart, okPart, hp,
        Except.toOption]
      simp [List.append_assoc]
    · simp only [hp, ih, List.filterMap_cons, errPart, okPart, hp,
        Except.toOption]
      simp [List.append_assoc]

theorem try_parse_params_eq (params : List ParamM)
    (fields : List FieldStateM) :
    try_parse_params params fields
      = (if ((params.zip fields).enum.filterMap errPart).isEmpty then
          .ok ((params.zip fields).enum.filterMap okPart)
        else .error ((params.zip fields).enum.filterMap errPart)) := by
  unfold try_parse_params
  rw [tpp_foldl]
  simp

theorem enum_pairwise_fst_lt {α : Type} (l : List α) :
    l.enum.Pairwise (fun a b => a.1 < b.1) := by
  rw [List.pairwise_iff_getElem]
  intro i j hi hj hij
  simp only [List.getElem_enum]
  exact hij

theorem enum_filterMap_errPart_pairwise (zs : List (ParamM × FieldStateM)) :
    (zs.enum.filterMap errPart).Pairwise (fun a b => a.1 < b.1) := by
  refine List.Pairwise.filterMap errPart ?_ (enum_pairwise_fst_lt zs)
  intro a a' h b hb b' hb'
  have hb1 : b.1 = a.1 := by
    unfold errPart at hb
    rcases hp : parse_value a.2.2.value a.2.1.ty with e | v <;> rw [hp] at hb
    · simp at hb
      rw [← hb]
    · simp at hb
  have hb'1 : b'.1 = a'.1 := by
    unfold errPart at hb'
    rcases hp : parse_value a'.2.2.value a'.2.1.ty with e | v <;>
      rw [hp] at hb'
    · simp at hb'
      rw [← hb']
    · simp at hb'
  rw [hb1, hb'1]
  exact h

theorem set_getElem?_self {α : Type} (l : List α) (i : Nat) (a : α)
    (h : l[i]? = some a) : l.set i a = l := by
  induction l generalizing i with
  | nil => simp at h
  | cons x xs ih =>
    cases i with
    | zero =>
      simp at h
      simp [List.set, h]
    | succ n =>
      simp at h
      simp [List.set, ih n h]

theorem applyFieldErrors_cons (fields : List FieldStateM)
    (ie : Nat × String) (rest : List (Nat × String)) :
    applyFieldErrors fields (ie :: rest)
      = applyFieldErrors
          (match fields[ie.1]? with
           | some f => fields.set ie.1 { f with error := some ie.2 }
           | none => fields) rest := rfl

theorem applyFieldErrors_cons_none (fields : List FieldStateM)
    (ie : Nat × String) (rest : List (Nat × String))
    (h : fields[ie.1]? = none) :
    applyFieldErrors fields (ie :: rest) = applyFieldErrors fields rest := by
  rw [applyFieldErrors_cons, h]

theorem applyFieldErrors_cons_some (fields : List FieldStateM)
    (ie : Nat × String) (rest : List (Nat × String)) (f : FieldStateM)
    (h : fields[ie.1]? = some f) :
    applyFieldErrors fields (ie :: rest)
      = applyFieldErrors
          (fields.set ie.1 { f with error := some ie.2 }) rest := by
  rw [applyFieldErrors_cons, h]

theorem applyFieldErrors_values (fields : List FieldStateM)
    (errs : List (Nat × String)) :
    (applyFieldErrors fields errs).map (·.value) = fields.map (·.value) := by
  induction errs generalizing fields with
  | nil => rfl
  | cons ie rest ih =>
    rcases hg : fields[ie.1]? with _ | f
    · rw [applyFieldErrors_cons_none _ _ _ hg]
      exact ih fields
    · rw [applyFieldErrors_cons_some _ _ _ _ hg, ih, List.map_set]
      show (fields.map (·.value)).set ie.1 f.value = fields.map (·.value)
      apply set_getElem?_self
      simp [hg]

theorem applyFieldErrors_not_mem (fields : List FieldStateM)
    (errs : List (Nat × String)) (i : Nat)
    (h : i ∉ errs.map Prod.fst) :
    (applyFieldErrors fields errs)[i]? = fields[i]? := by
  induction errs generalizing fields with
  | nil => rfl
  | cons ie rest ih =>
    have hne : ie.1 ≠ i := fun he => h (by simp [← he])
    have hrest : i ∉ rest.map Prod.fst := fun hm => h (by simp [hm])
    rcases hg : fields[ie.1]? with _ | f
    · rw [applyFieldErrors_cons_none _ _ _ hg]
      exact ih fields hrest
    · rw [applyFieldErrors_cons_some _ _ _ _ hg]
      rw [ih _ hrest]
      exact List.getElem?_set_ne hne

theorem applyFieldErrors_annotates (fields : List FieldStateM)
    (errs : List (Nat × String))
    (hpw : errs.Pairwise (fun a b => a.1 < b.1)) :
    ∀ (i : Nat) (e : String), (i, e) ∈ errs →
      (applyFieldErrors fields errs)[i]?
        = fields[i]?.map (fun f => { f with error := some e }) := by
  induction errs generalizing fields with
  | nil =>
    intro i e h
    simp at h
  | cons ie rest ih =>
    intro i e hmem
    obtain ⟨hhead, hpwrest⟩ := List.pairwise_cons.mp hpw
    rcases List.mem_cons.mp hmem with heq | htail
    · have hi : ie.1 = i := by rw [← heq]
      have he : ie.2 = e := by rw [← heq]
      have hnotrest : i ∉ rest.map Prod.fst := by
        intro hm
        obtain ⟨je, hmem', hj⟩ := List.mem_map.mp hm
        have hlt := hhead je hmem'
        rw [hj, ← hi] at hlt
        exact lt_irrefl _ hlt
      rcases hg : fields[ie.1]? with _ | f
      · rw [applyFieldErrors_cons_none _ _ _ hg]
        rw [applyFieldErrors_not_mem _ _ _ hnotrest]
        rw [← hi, hg]
        rfl
      · rw [applyFieldErrors_cons_some _ _ _ _ hg]
        rw [applyFieldErrors_not_mem _ _ _ hnotrest]
        have hlen : ie.1 < fields.length :=
          (List.getElem?_eq_some_iff.mp hg).1
        rw [← hi, List.getElem?_set_self hlen, hg, he]
        rfl
    · have hlt : ie.1 < i := hhead (i, e) htail
      rcases hg : fields[ie.1]? with _ | f
      · rw [applyFieldErrors_cons_none _ _ _ hg]
        exact ih _ hpwrest i e htail
      · rw [applyFieldErrors_cons_some _ _ _ _ hg]
        rw [ih _ hpwrest i e htail]
        rw [List.getElem?_set_ne (Nat.ne_of_lt hlt)]

theorem filterMap_all_some {α β : Type} (F : α → Option β) (l : List α)
    (hall : ∀ x ∈ l, (F x).isSome = true) :
    (l.filterMap F).length = l.length
    ∧ ∀ (i : Nat) (h : i < l.length) (h2 : i < (l.filterMap F).length),
        F l[i] = some (l.filterMap F)[i] := by
  induction l with
  | nil => simp
  | cons x xs ih =>
    have hx := hall x (by simp)
    rcases hFx : F x with _ | b
    · rw [hFx] at hx
      simp at hx
    · obtain ⟨ihlen, ihget⟩ := ih (fun y hy => hall y (by simp [hy]))
      rw [List.filterMap_cons_some hFx]
      refine ⟨by simp [ihlen], ?_⟩
      intro i h h2
      cases i with
      | zero => simpa using hFx
      | succ n =>
        have hn : n < xs.length := by simpa using h
        have hn2 : n < (xs.filterMap F).length := by simpa using h2
        simpa using ihget n hn hn2

theorem except_toOption_some {ε α : Type} {e : Except ε α} {v : α}
    (h : e.toOption = some v) : e = .ok v := by
  cases e with
  | error x => simp [Except.toOption] at h
  | ok x => simpa [Except.toOption] using h

/-- C2 — all-or-nothing parameter submission.  Parsing the full list
succeeds iff every field parses against its declared type, yielding one
value per field in declaration order; otherwise it yields exactly the
`(index, message)` pairs of the failing fields.  On a failed submission the
popup stays open with each failing field annotated, no entered text
changed, the pending action untouched and nothing dispatched; on success
the popup closes, the pending action is cleared and the action is
dispatched with the parsed values. -/
theorem parameter_submission_all_or_nothing
    (params : List ParamM) (fields : List FieldStateM)
    (hlen : params.length = fields.length) :
    ((∃ vs, try_parse_params params fields = .ok vs) ↔
      ∀ (i : Nat) (h : i < params.length),
        (parse_value (fields.get ⟨i, hlen ▸ h⟩).value
          (params.get ⟨i, h⟩).ty).isOk = true)
    ∧ (∀ vs, try_parse_params params fields = .ok vs →
        vs.length = params.length
        ∧ ∀ (i : Nat) (h : i < params.length) (hv : i < vs.length),
            parse_value (fields.get ⟨i, hlen ▸ h⟩).value
              (params.get ⟨i, h⟩).ty = .ok (vs.get ⟨i, hv⟩))
    ∧ (∀ errs, try_parse_params params fields = .error errs →
        ∀ (i : Nat) (e : String), ((i, e) ∈ errs ↔
          ∃ h : i < params.length,
            parse_value (fields.get ⟨i, hlen ▸ h⟩).value
              (params.get ⟨i, h⟩).ty = .error e))
    ∧ (∀ (s : SessionM) (mn : String) (cur : Nat)
        (tgt : Option BytecodeTargetM),
        s.popup = .parameterPopup mn params fields cur tgt →
        (∀ errs, try_parse_params params fields = .error errs →
          (handleParameterPopupEnter s).2 = none
          ∧ (handleParameterPopupEnter s).1.popup
              = .parameterPopup mn params (applyFieldErrors fields errs)
                  cur tgt
          ∧ (applyFieldErrors fields errs).map (·.value)
              = fields.map (·.value)
          ∧ (handleParameterPopupEnter s).1.pending = s.pending
          ∧ (∀ (i : Nat) (e : String), (i, e) ∈ errs →
              (applyFieldErrors fields errs)[i]?
                = fields[i]?.map (fun f => { f with error := some e })))
        ∧ (∀ vs, try_parse_params params fields = .ok vs →
          (handleParameterPopupEnter s).1.popup = .none
          ∧ (handleParameterPopupEnter s).1.pending = .none
          ∧ (handleParameterPopupEnter s).1.focus = .sidebar
          ∧ (handleParameterPopupEnter s).2
              = (match s.pending with
                 | .none => none
                 | .deploy n p abi =>
                   some (.deployOp n p abi vs (tgt.getD .evm))
                 | .callMethod f a => some (.callOp f a vs)))) := by
  have hzlen : (params.zip fields).length = params.length := by
    simp [List.length_zip, hlen]
  have hzget : ∀ (i : Nat) (h : i < params.length),
      (params.zip fields)[i]?
        = some (params.get ⟨i, h⟩, fields.get ⟨i, hlen ▸ h⟩) := by
    intro i h
    have hz : i < (params.zip fields).length := by rw [hzlen]; exact h
    rw [List.getElem?_eq_getElem hz, List.getElem_zip]
    simp [List.get_eq_getElem]
  -- membership in the error list, characterized by index
  have hEmem : ∀ (i : Nat) (e : String),
      ((i, e) ∈ (params.zip fields).enum.filterMap errPart ↔
        ∃ h : i < params.length,
          parse_value (fields.get ⟨i, hlen ▸ h⟩).value
            (params.get ⟨i, h⟩).ty = .error e) := by
    intro i e
    constructor
    · intro hmem
      obtain ⟨⟨j, pg, fg⟩, hiamem, hia⟩ := List.mem_filterMap.mp hmem
      have hget := List.mem_enum_iff_getElem?.mp hiamem
      dsimp only at hget
      rcases hp : parse_value fg.value pg.ty with e' | v <;>
        simp [errPart, hp] at hia
      obtain ⟨hj, he⟩ := hia
      subst hj
      subst he
      have hib : j < params.length := by
        have hb := (List.getElem?_eq_some_iff.mp hget).1
        rw [hzlen] at hb
        exact hb
      refine ⟨hib, ?_⟩
      have h2 := (hzget j hib).symm.trans hget
      injection h2 with h2
      have hpg : params.get ⟨j, hib⟩ = pg := congrArg Prod.fst h2
      have hfg : fields.get ⟨j, hlen ▸ hib⟩ = fg := congrArg Prod.snd h2
      rw [hpg, hfg]
      exact hp
    · rintro ⟨h, hp⟩
      apply List.mem_filterMap.mpr
      refine ⟨(i, (params.get ⟨i, h⟩, fields.get ⟨i, hlen ▸ h⟩)), ?_, ?_⟩
      · exact List.mem_enum_iff_getElem?.mpr (hzget i h)
      · simp only [List.get_eq_getElem] at hp
        simp [errPart, hp]
  -- emptiness of the error list, characterized by index
  have hEnil : ((params.zip fields).enum.filterMap errPart = [] ↔
      ∀ (i : Nat) (h : i < params.length),
        (parse_value (fields.get ⟨i, hlen ▸ h⟩).value
          (params.get ⟨i, h⟩).ty).isOk = true) := by
    rw [List.filterMap_eq_nil_iff]
    constructor
    · intro hall i h
      have hmem : (i, (params.get ⟨i, h⟩, fields.get ⟨i, hlen ▸ h⟩)) ∈
          (params.zip fields).enum :=
        List.mem_enum_iff_getElem?.mpr (hzget i h)
      have hnone := hall _ hmem
      rcases hp : parse_value (fields.get ⟨i, hlen ▸ h⟩).value
          (params.get ⟨i, h⟩).ty with e | v
      · simp only [List.get_eq_getElem] at hp
        simp [errPart, hp] at hnone
      · rfl
    · intro hall ia hmem
      obtain ⟨j, pg, fg⟩ := ia
      have hget := List.mem_enum_iff_getElem?.mp hmem
      dsimp only at hget
      have hib : j < params.length := by
        have hb := (List.getElem?_eq_some_iff.mp hget).1
        rw [hzlen] at hb
        exact hb
      have h2 := (hzget j hib).symm.trans hget
      injection h2 with h2
      have hpg : params.get ⟨j, hib⟩ = pg := congrArg Prod.fst h2
      have hfg : fields.get ⟨j, hlen ▸ hib⟩ = fg := congrArg Prod.snd h2
      have hp := hall j hib
      rw [hpg, hfg] at hp
      rcases hq : parse_value fg.value pg.ty with e | v
      · rw [hq] at hp
        simp [Except.isOk, Except.toBool] at hp
      · simp [errPart, hq]
  refine ⟨?_, ?_, ?_, ?_⟩
  · rw [← hEnil]
    constructor
    · intro ⟨vs, hvs⟩
      rw [try_parse_params_eq] at hvs
      by_cases hE : ((params.zip fields).enum.filterMap errPart).isEmpty
      · exact List.isEmpty_iff.mp hE
      · rw [if_neg hE] at hvs
        exact absurd hvs (by simp)
    · intro hnil
      rw [try_parse_params_eq]
      rw [if_pos (List.isEmpty_iff.mpr hnil)]
      exact ⟨_, rfl⟩
  · intro vs hvs
    rw [try_parse_params_eq] at hvs
    by_cases hE : ((params.zip fields).enum.filterMap errPart).isEmpty
    · rw [if_pos hE] at hvs
      injection hvs with hvs
      have hall := hEnil.mp (List.isEmpty_iff.mp hE)
      -- every field parses, so okPart is total on the enum
      have hsome : ∀ x ∈ (params.zip fields).enum,
          (okPart x).isSome = true := by
        intro ia hmem
        obtain ⟨j, pg, fg⟩ := ia
        have hget := List.mem_enum_iff_getElem?.mp hmem
        dsimp only at hget
        have hib : j < params.length := by
          have hb := (List.getElem?_eq_some_iff.mp hget).1
          rw [hzlen] at hb
          exact hb
        have h2 := (hzget j hib).symm.trans hget
        injection h2 with h2
        have hpg : params.get ⟨j, hib⟩ = pg := congrArg Prod.fst h2
        have hfg : fields.get ⟨j, hlen ▸ hib⟩ = fg := congrArg Prod.snd h2
        have hp := hall j hib
        rw [hpg, hfg] at hp
        rcases hq : parse_value fg.value pg.ty with e | v
        · rw [hq] at hp
          simp [Except.isOk, Except.toBool] at hp
        · simp [okPart, hq, Except.toOption]
      obtain ⟨hflen, hfget⟩ := filterMap_all_some okPart
        ((params.zip fields).enum) hsome
      subst hvs
      constructor
      · rw [hflen, List.enum_length, hzlen]
      · intro i h hv
        have hienum : i < (params.zip fields).enum.length := by
          rw [List.enum_length, hzlen]
          exact h
        have hstep := hfget i hienum hv
        rw [List.getElem_enum] at hstep
        have hz : i < (params.zip fields).length := by rw [hzlen]; exact h
        have h2 : (params.zip fields)[i]
            = (params.get ⟨i, h⟩, fields.get ⟨i, hlen ▸ h⟩) := by
          have h3 := hzget i h
          rw [List.getElem?_eq_getElem hz] at h3
          injection h3
        rw [h2] at hstep
        have hstep2 : (parse_value (fields.get ⟨i, hlen ▸ h⟩).value
            (params.get ⟨i, h⟩).ty).toOption
            = some (((params.zip fields).enum.filterMap okPart).get
                ⟨i, hv⟩) := hstep
        have hok := except_toOption_some hstep2
        rw [hok]
    · rw [if_neg hE] at hvs
      exact absurd hvs (by simp)
  · intro errs herrs i e
    rw [try_parse_params_eq] at herrs
    by_cases hE : ((params.zip fields).enum.filterMap errPart).isEmpty
    · rw [if_pos hE] at herrs
      exact absurd herrs (by simp)
    · rw [if_neg hE] at herrs
      injection herrs with h
      rw [← h]
      exact hEmem i e
  · intro s mn cur tgt hpopup
    constructor
    · intro errs herrs
      refine ⟨?_, ?_, applyFieldErrors_values _ _, ?_, ?_⟩
      · simp [handleParameterPopupEnter, hpopup, herrs]
      · simp [handleParameterPopupEnter, hpopup, herrs]
      · simp [handleParameterPopupEnter, hpopup, herrs]
      · -- the failing indices are strictly increasing
        have hpw : errs.Pairwise (fun a b => a.1 < b.1) := by
          rw [try_parse_params_eq] at herrs
          by_cases hE : ((params.zip fields).enum.filterMap
              errPart).isEmpty
          · rw [if_pos hE] at herrs
            exact absurd herrs (by simp)
          · rw [if_neg hE] at herrs
            injection herrs with h
            rw [← h]
            exact enum_filterMap_errPart_pairwise _
        exact applyFieldErrors_annotates fields errs hpw
    · intro vs hvs
      rcases hpend : s.pending with _ | ⟨n, p, abi⟩ | ⟨f, a⟩ <;>
        refine ⟨?_, ?_, ?_, ?_⟩ <;>
        simp [handleParameterPopupEnter, hpopup, hvs, hpend]

/-- C2 witness: a two-field popup whose fields both parse; submission
closes the popup and dispatches the pending deploy. -/
theorem parameter_submission_all_or_nothing_witness :
    (handleParameterPopupEnter
        ⟨.sidebar,
         .parameterPopup "constructor" [⟨"x", "uint256"⟩, ⟨"b", "bool"⟩]
           [⟨"42", none⟩, ⟨"yes", none⟩] 0 (some .evm),
         .deploy "Foo" "/x/a.sol" emptyAbi, [], 0⟩).1.popup = .none
    ∧ (handleParameterPopupEnter
        ⟨.sidebar,
         .parameterPopup "constructor" [⟨"x", "uint256"⟩, ⟨"b", "bool"⟩]
           [⟨"42", none⟩, ⟨"yes", none⟩] 0 (some .evm),
         .deploy "Foo" "/x/a.sol" emptyAbi, [], 0⟩).2
      = some (.deployOp "Foo" "/x/a.sol" emptyAbi
          [.uint 42 256, .bool true] .evm) := by
  have h := (parameter_submission_all_or_nothing
    [⟨"x", "uint256"⟩, ⟨"b", "bool"⟩] [⟨"42", none⟩, ⟨"yes", none⟩]
    rfl).2.2.2
    ⟨.sidebar,
     .parameterPopup "constructor" [⟨"x", "uint256"⟩, ⟨"b", "bool"⟩]
       [⟨"42", none⟩, ⟨"yes", none⟩] 0 (some .evm),
     .deploy "Foo" "/x/a.sol" emptyAbi, [], 0⟩
    "constructor" 0 (some .evm) rfl
  obtain ⟨-, hok⟩ := h
  have hv := hok [.uint 42 256, .bool true] rfl
  exact ⟨hv.1, hv.2.2.2⟩

/-- C10 witness: an absent entry yields the empty list. -/
theorem get_deployments_total_filter_witness :
    get_deployments (fun _ => none) ⟨[]⟩ ⟨"a.sol", "Foo"⟩ = [] :=
  (get_deployments_total_filter (fun _ => none) ⟨[]⟩ ⟨"a.sol", "Foo"⟩).1 rfl

/-! ## Stable-sort lemmas -/

theorem insertLe_perm {α : Type} (le : α → α → Bool) (a : α) (l : List α) :
    (insertLe le a l).Perm (a :: l) := by
  induction l with
  | nil => exact List.Perm.refl _
  | cons b l ih =>
    by_cases h : le a b
    · simp [insertLe, h]
    · simp only [insertLe, if_neg h]
      exact (ih.cons b).trans (List.Perm.swap a b l)

theorem sortByLe_perm {α : Type} (le : α → α → Bool) (l : List α) :
    (sortByLe le l).Perm l := by
  induction l with
  | nil => exact List.Perm.refl _
  | cons x xs ih =>
    exact (insertLe_perm le x (sortByLe le xs)).trans (ih.cons x)

theorem insertLe_pairwise {α : Type} (le : α → α → Bool)
    (htrans : ∀ a b c, le a b = true → le b c = true → le a c = true)
    (htotal : ∀ a b, (le a b || le b a) = true) (a : α) (l : List α)
    (hl : l.Pairwise (fun x y => le x y = true)) :
    (insertLe le a l).Pairwise (fun x y => le x y = true) := by
  induction l with
  | nil => simp [insertLe]
  | cons b l ih =>
    obtain ⟨hb, hl'⟩ := List.pairwise_cons.mp hl
    by_cases h : le a b
    · simp only [insertLe, if_pos h]
      refine List.pairwise_cons.mpr ⟨?_, hl⟩
      intro y hy
      rcases List.mem_cons.mp hy with hy | hy
      · rw [hy]
        exact h
      · exact htrans a b y h (hb y hy)
    · have hba : le b a = true := by
        rcases Bool.or_eq_true_iff.mp (htotal a b) with h' | h'
        · exact absurd h' h
        · exact h'
      simp only [insertLe, if_neg h]
      refine List.pairwise_cons.mpr ⟨?_, ih hl'⟩
      intro y hy
      have hy' := (insertLe_perm le a l).mem_iff.mp hy
      rcases List.mem_cons.mp hy' with hy' | hy'
      · rw [hy']
        exact hba
      · exact hb y hy'

theorem sortByLe_pairwise {α : Type} (le : α → α → Bool)
    (htrans : ∀ a b c, le a b = true → le b c = true → le a c = true)
    (htotal : ∀ a b, (le a b || le b a) = true) (l : List α) :
    (sortByLe le l).Pairwise (fun x y => le x y = true) := by
  induction l with
  | nil => simp [sortByLe]
  | cons x xs ih => exact insertLe_pairwise le htrans htotal x _ ih

theorem sortByLe_eq_of_perm {α : Type} (le : α → α → Bool)
    (htrans : ∀ a b c, le a b = true → le b c = true → le a c = true)
    (htotal : ∀ a b, (le a b || le b a) = true)
    (hantisymm : ∀ a b, le a b = true → le b a = true → a = b)
    {l₁ l₂ : List α} (hp : l₁.Perm l₂) :
    sortByLe le l₁ = sortByLe le l₂ := by
  haveI : IsAntisymm α (fun x y => le x y = true) := ⟨hantisymm⟩
  exact List.eq_of_perm_of_sorted
    ((sortByLe_perm le l₁).trans (hp.trans (sortByLe_perm le l₂).symm))
    (sortByLe_pairwise le htrans htotal l₁)
    (sortByLe_pairwise le htrans htotal l₂)

/-! ## Comparator order lemmas -/

theorem charListLt_trans : ∀ (a b c : List Char),
    charListLt a b = true → charListLt b c = true →
    charListLt a c = true := by
  intro a
  induction a with
  | nil =>
    intro b c hab hbc
    cases b with
    | nil => simp [charListLt] at hab
    | cons bh bt =>
      cases c with
      | nil => simp [charListLt] at hbc
      | cons ch ct => rfl
  | cons ah at' ih =>
    intro b c hab hbc
    cases b with
    | nil => simp [charListLt] at hab
    | cons bh bt =>
      cases c with
      | nil => simp [charListLt] at hbc
      | cons ch ct =>
        unfold charListLt at hab hbc ⊢
        by_cases h1 : ah < bh
        · by_cases h2 : bh < ch
          · simp [lt_trans h1 h2]
          · by_cases h3 : ch < bh
            · simp [h2, h3] at hbc
            · have hbc' : bh = ch := le_antisymm (not_lt.mp h3) (not_lt.mp h2)
              subst hbc'
              simp [h1]
        · by_cases h1' : bh < ah
          · simp [h1, h1'] at hab
          · have hab' : ah = bh := le_antisymm (not_lt.mp h1') (not_lt.mp h1)
            subst hab'
            simp only [lt_irrefl, if_false] at hab
            by_cases h2 : ah < ch
            · simp [h2]
            · by_cases h3 : ch < ah
              · simp [h2, h3] at hbc
              · simp only [h2, h3, if_false] at hbc ⊢
                exact ih bt ct hab hbc

theorem charListLt_irrefl : ∀ a : List Char, charListLt a a = false := by
  intro a
  induction a with
  | nil => rfl
  | cons ah at' ih => simp [charListLt, ih]

theorem charListLt_asymm {a b : List Char} (h : charListLt a b = true) :
    charListLt b a = false := by
  by_cases h' : charListLt b a = true
  · have := charListLt_trans a b a h h'
    rw [charListLt_irrefl] at this
    exact absurd this (by simp)
  · exact Bool.not_eq_true _ ▸ eq_false_of_ne_true h'

theorem charListLt_total_ne : ∀ (a b : List Char), a ≠ b →
    (charListLt a b || charListLt b a) = true := by
  intro a
  induction a with
  | nil =>
    intro b hne
    cases b with
    | nil => exact absurd rfl hne
    | cons bh bt => rfl
  | cons ah at' ih =>
    intro b hne
    cases b with
    | nil => rfl
    | cons bh bt =>
      unfold charListLt
      by_cases h1 : ah < bh
      · simp [h1]
      · by_cases h2 : bh < ah
        · simp [h1, h2]
        · have heq : ah = bh := le_antisymm (not_lt.mp h2) (not_lt.mp h1)
          subst heq
          have hne' : at' ≠ bt := fun h => hne (by rw [h])
          simp only [lt_irrefl, if_false]
          exact ih bt hne'

theorem string_toList_inj {a b : String} (h : a.toList = b.toList) :
    a = b := String.ext h

theorem strLt_asymm {a b : String} (h : strLt a b = true) :
    strLt b a = false := charListLt_asymm h

theorem strLe_total (a b : String) : (strLe a b || strLe b a) = true := by
  by_cases h : a = b
  · subst h
    simp [strLe]
  · have hne : a.toList ≠ b.toList := fun hl => h (string_toList_inj hl)
    rcases Bool.or_eq_true_iff.mp (charListLt_total_ne _ _ hne) with h' | h'
    · exact Bool.or_eq_true_iff.mpr
        (Or.inl (Bool.or_eq_true_iff.mpr (Or.inl h')))
    · exact Bool.or_eq_true_iff.mpr
        (Or.inr (Bool.or_eq_true_iff.mpr (Or.inl h')))

theorem strLe_trans (a b c : String) (hab : strLe a b = true)
    (hbc : strLe b c = true) : strLe a c = true := by
  rcases Bool.or_eq_true_iff.mp hab with h1 | h1
  · rcases Bool.or_eq_true_iff.mp hbc with h2 | h2
    · exact Bool.or_eq_true_iff.mpr
        (Or.inl (charListLt_trans _ _ _ h1 h2))
    · have : b = c := by simpa using h2
      subst this
      exact Bool.or_eq_true_iff.mpr (Or.inl h1)
  · have : a = b := by simpa using h1
    subst this
    exact hbc

theorem strLe_antisymm (a b : String) (hab : strLe a b = true)
    (hba : strLe b a = true) : a = b := by
  rcases Bool.or_eq_true_iff.mp hab with h1 | h1
  · rcases Bool.or_eq_true_iff.mp hba with h2 | h2
    · have h3 : strLt b a = false := strLt_asymm h1
      rw [h2] at h3
      exact absurd h3 (by simp)
    · exact (by simpa using h2 : b = a).symm
  · simpa using h1

theorem contractIdLeB_total (a b : ContractId) :
    (contractIdLeB a b || contractIdLeB b a) = true := by
  by_cases hp : a.path = b.path
  · simp only [contractIdLeB, hp, if_pos rfl, if_pos hp.symm]
    exact strLe_total a.name b.name
  · have hne : a.path.toList ≠ b.path.toList :=
      fun hl => hp (string_toList_inj hl)
    simp only [contractIdLeB, if_neg hp, if_neg (Ne.symm hp)]
    exact charListLt_total_ne _ _ hne

theorem contractIdLeB_trans (a b c : ContractId)
    (hab : contractIdLeB a b = true) (hbc : contractIdLeB b c = true) :
    contractIdLeB a c = true := by
  unfold contractIdLeB at hab hbc ⊢
  by_cases h1 : a.path = b.path
  · by_cases h2 : b.path = c.path
    · rw [if_pos h1] at hab
      rw [if_pos h2] at hbc
      rw [if_pos (h1.trans h2)]
      exact strLe_trans _ _ _ hab hbc
    · rw [if_pos h1] at hab
      rw [if_neg h2] at hbc
      rw [if_neg (h1 ▸ h2), h1]
      exact hbc
  · by_cases h2 : b.path = c.path
    · rw [if_neg h1] at hab
      rw [← h2]
      rw [if_neg h1]
      exact hab
    · rw [if_neg h1] at hab
      rw [if_neg h2] at hbc
      have hac : strLt a.path c.path = true :=
        charListLt_trans _ _ _ hab hbc
      have hne : a.path ≠ c.path := by
        intro he
        rw [he] at hab
        have h3 : strLt c.path b.path = false := strLt_asymm hbc
        rw [hab] at h3
        exact absurd h3 (by simp)
      rw [if_neg hne]
      exact hac

theorem contractIdLeB_antisymm (a b : ContractId)
    (hab : contractIdLeB a b = true) (hba : contractIdLeB b a = true) :
    a = b := by
  unfold contractIdLeB at hab hba
  by_cases hp : a.path = b.path
  · rw [if_pos hp] at hab
    rw [if_pos hp.symm] at hba
    have hn := strLe_antisymm _ _ hab hba
    cases a
    cases b
    simp_all
  · rw [if_neg hp] at hab
    rw [if_neg (Ne.symm hp)] at hba
    have h3 : strLt b.path a.path = false := strLt_asymm hab
    rw [hba] at h3
    exact absurd h3 (by simp)

theorem methodLeB_total (a b : FunctionM) :
    (methodLeB a b || methodLeB b a) = true := by
  rcases hva : isViewOrPure a <;> rcases hvb : isViewOrPure b <;>
    simp only [methodLeB, hva, hvb] <;>
    first
      | exact strLe_total a.name b.name
      | simp

theorem methodLeB_trans (a b c : FunctionM)
    (hab : methodLeB a b = true) (hbc : methodLeB b c = true) :
    methodLeB a c = true := by
  rcases hva : isViewOrPure a <;> rcases hvb : isViewOrPure b <;>
    rcases hvc : isViewOrPure c <;>
    simp only [methodLeB, hva, hvb, hvc] at hab hbc ⊢ <;>
    first
      | rfl
      | exact strLe_trans _ _ _ hab hbc
      | simp at hab
      | simp at hbc

/-! ## Tree-builder helper lemmas -/

theorem foldl_append_flatMap {α γ : Type} (g : α → List γ)
    (f : List γ → α → List γ) (hf : ∀ acc x, f acc x = acc ++ g x) :
    ∀ (l : List α) (init : List γ), l.foldl f init = init ++ l.flatMap g := by
  intro l
  induction l with
  | nil => intro init; simp
  | cons x xs ih =>
    intro init
    rw [List.foldl_cons, hf, ih, List.flatMap_cons, List.append_assoc]

theorem flatMap_single {α β : Type} (f : α → β) (l : List α) :
    l.flatMap (fun x => [f x]) = l.map f := by
  induction l with
  | nil => rfl
  | cons x xs ih => simp [ih]

theorem methodNodesFor_eq (abi : JsonAbiM) (addr : AddressStr) :
    methodNodesFor abi addr
      = (sortByLe methodLeB abi.functions).map
          (fun f => .method f (methodTag f) addr) := by
  have hlm : list_methods abi false
      = (sortByLe methodLeB abi.functions).map
          (fun f => ⟨methodLabel f, methodTag f, .functionSel f⟩) := rfl
  unfold methodNodesFor
  rw [hlm]
  rw [foldl_append_flatMap
    (fun md => match md.selection with
      | .functionSel f => [TreeNodeM.method f md.tag addr]
      | .constructorSel => [])
    _ (fun acc md => by rcases md with ⟨l, t, _ | f⟩ <;> simp)]
  rw [List.nil_append, List.flatMap_map]
  exact flatMap_single _ _

theorem findEntry_eq_some_of_mem {m : Deployments} {k : String}
    {v : List String} (hnd : (m.map Prod.fst).Nodup) (hmem : (k, v) ∈ m) :
    findEntry m k = some v := by
  induction m with
  | nil => simp at hmem
  | cons p rest ih =>
    obtain ⟨k₀, v₀⟩ := p
    simp only [List.map_cons, List.nodup_cons] at hnd
    rcases List.mem_cons.mp hmem with heq | htail
    · obtain ⟨h1, h2⟩ := Prod.mk.injEq .. ▸ heq
      injection heq with h1 h2
      subst h1
      subst h2
      simp [findEntry]
    · have hk : k₀ ≠ k := by
        intro he
        subst he
        exact hnd.1 (List.mem_map.mpr ⟨(k₀, v), htail, rfl⟩)
      simp only [findEntry, if_neg hk]
      exact ih hnd.2 htail

theorem mem_of_findEntry_eq_some {m : Deployments} {k : String}
    {v : List String} (h : findEntry m k = some v) : (k, v) ∈ m := by
  induction m with
  | nil => simp [findEntry] at h
  | cons p rest ih =>
    obtain ⟨k₀, v₀⟩ := p
    by_cases hk : k₀ = k
    · subst hk
      simp only [findEntry, if_pos rfl] at h
      injection h with h
      subst h
      exact List.mem_cons_self _ _
    · simp only [findEntry, if_neg hk] at h
      exact List.mem_cons_of_mem _ (ih h)

theorem findEntry_eq_none_iff {m : Deployments} {k : String} :
    findEntry m k = none ↔ k ∉ m.map Prod.fst := by
  induction m with
  | nil => simp [findEntry]
  | cons p rest ih =>
    obtain ⟨k₀, v₀⟩ := p
    by_cases hk : k₀ = k
    · subst hk
      simp [findEntry]
    · simp [findEntry, hk, ih, Ne.symm hk]

theorem findEntry_perm {m₁ m₂ : Deployments} (hnd : (m₁.map Prod.fst).Nodup)
    (hp : m₁.Perm m₂) (k : String) : findEntry m₁ k = findEntry m₂ k := by
  have hnd₂ : (m₂.map Prod.fst).Nodup := ((hp.map Prod.fst).nodup_iff).mp hnd
  rcases h1 : findEntry m₁ k with _ | v
  · rcases h2 : findEntry m₂ k with _ | v₂
    · rfl
    · have hm := mem_of_findEntry_eq_some h2
      have := findEntry_eq_none_iff.mp h1
      exact absurd (List.mem_map.mpr ⟨(k, v₂), hp.symm.mem_iff.mp hm, rfl⟩)
        this
  · exact (findEntry_eq_some_of_mem hnd₂
      (hp.mem_iff.mp (mem_of_findEntry_eq_some h1))).symm

theorem build_tree_nodes_eq (canon : String → Option String) (app : AppM) :
    build_tree_nodes canon app
      = .newContract :: (sortByLe contractIdLeB
          (contractsWithCurrent canon app)).flatMap
          (contractBlock canon app) := by
  unfold build_tree_nodes
  rw [foldl_append_flatMap (contractBlock canon app) _ ?_]
  · rfl
  · intro acc cid
    dsimp only
    by_cases hexp : (cid.path, cid.name) ∈ app.expanded_contracts
    · rw [if_pos hexp]
      rw [foldl_append_flatMap
        (instanceBlock app (get_abi_for_contract canon app cid) cid) _ ?_]
      · simp [contractBlock, if_pos hexp, List.append_assoc]
      · intro nodes addr
        dsimp only
        by_cases hai : addr ∈ app.expanded_instances
        · rw [if_pos hai]
          simp [instanceBlock, if_pos hai, List.append_assoc]
        · rw [if_neg hai]
          simp [instanceBlock, if_neg hai]
    · rw [if_neg hexp]
      simp [contractBlock, if_neg hexp]

theorem any_perm {α : Type} {l₁ l₂ : List α} (hp : l₁.Perm l₂)
    (p : α → Bool) : l₁.any p = l₂.any p := by
  by_cases h : l₁.any p = true
  · rw [h]
    obtain ⟨x, hm, hx⟩ := List.any_eq_true.mp h
    exact (List.any_eq_true.mpr ⟨x, hp.mem_iff.mp hm, hx⟩).symm
  · have h1 : l₁.any p = false := eq_false_of_ne_true h
    rw [h1]
    by_cases h2 : l₂.any p = true
    · obtain ⟨x, hm, hx⟩ := List.any_eq_true.mp h2
      exact absurd (List.any_eq_true.mpr ⟨x, hp.mem_iff.mpr hm, hx⟩) h
    · exact (eq_false_of_ne_true h2).symm

/-- C4 — shape and determinism of the tree builder.  The node list is a
`NewContract` node followed, for each identity of the registry (union the
current contract) in `(path, name)` order, by that identity's block: a
Contract node, then — when expanded — Constructor and LoadExistingInstance
nodes and one block per deployed address, with per-instance Method nodes
for every non-constructor ABI function, read-only functions first and then
alphabetically.  Representing the hash containers as lists, the output is
invariant under permutation of the registry (with its unique keys) and of
the expansion sets, so iteration order is not observable. -/
theorem build_tree_nodes_shape_det (canon : String → Option String)
    (app : AppM) :
    (∃ ids : List ContractId,
      build_tree_nodes canon app
        = .newContract :: ids.flatMap (contractBlock canon app)
      ∧ ids.Perm (contractsWithCurrent canon app)
      ∧ ids.Pairwise (fun a b => contractIdLeB a b = true))
    ∧ (∀ (abi : JsonAbiM) (addr : AddressStr),
        ∃ fns : List FunctionM,
          methodNodesFor abi addr
            = fns.map (fun f => .method f (methodTag f) addr)
          ∧ fns.Perm abi.functions
          ∧ fns.Pairwise (fun a b => methodLeB a b = true))
    ∧ (∀ app₂ : AppM,
        app.store.deployments.Perm app₂.store.deployments →
        (app.store.deployments.map Prod.fst).Nodup →
        app.expanded_contracts.Perm app₂.expanded_contracts →
        app.expanded_instances.Perm app₂.expanded_instances →
        app.contract = app₂.contract →
        app.contract_path = app₂.contract_path →
        app.abi_cache = app₂.abi_cache →
        app.loader = app₂.loader →
        build_tree_nodes canon app = build_tree_nodes canon app₂) := by
  refine ⟨?_, ?_, ?_⟩
  · exact ⟨sortByLe contractIdLeB (contractsWithCurrent canon app),
      build_tree_nodes_eq canon app,
      sortByLe_perm _ _,
      sortByLe_pairwise _ contractIdLeB_trans contractIdLeB_total _⟩
  · intro abi addr
    exact ⟨sortByLe methodLeB abi.functions,
      methodNodesFor_eq abi addr,
      sortByLe_perm _ _,
      sortByLe_pairwise _ methodLeB_trans methodLeB_total _⟩
  · intro app₂ hstore hnd hec hei hct hcp hcache hld
    obtain ⟨st, ct, cp, ec, ei, cache, ld⟩ := app
    obtain ⟨st₂, ct₂, cp₂, ec₂, ei₂, cache₂, ld₂⟩ := app₂
    obtain ⟨md⟩ := st
    obtain ⟨md₂⟩ := st₂
    simp only at hstore hnd hec hei hct hcp hcache hld
    subst hct
    subst hcp
    subst hcache
    subst hld
    -- the registry entries seen through lookups agree
    have hfind : ∀ k, findEntry md k = findEntry md₂ k :=
      fun k => findEntry_perm hnd hstore k
    have hall : (all_contracts ⟨md⟩).Perm (all_contracts ⟨md₂⟩) :=
      (hstore.map Prod.fst).filterMap ContractId.fromKey
    -- the identity lists agree up to permutation
    have hcwc : (contractsWithCurrent canon
          ⟨⟨md⟩, ct, cp, ec, ei, cache, ld⟩).Perm
        (contractsWithCurrent canon ⟨⟨md₂⟩, ct, cp, ec₂, ei₂, cache,
          ld⟩) := by
      unfold contractsWithCurrent
      cases cp with
      | none => exact hall
      | some cpath =>
        cases ct with
        | none => exact hall
        | some cc =>
          simp only
          rw [any_perm hall]
          by_cases hin : ((all_contracts ⟨md₂⟩).any fun cid =>
              ((canon cid.path).getD cid.path == (canon cpath).getD cpath)
                && (cid.name == cc.name)) = true
          · rw [if_pos hin, if_pos hin]
            exact hall
          · rw [if_neg hin, if_neg hin]
            exact hall.append (List.Perm.refl _)
    -- the per-identity blocks agree pointwise
    have hblock : ∀ cid,
        contractBlock canon ⟨⟨md⟩, ct, cp, ec, ei, cache, ld⟩ cid
          = contractBlock canon ⟨⟨md₂⟩, ct, cp, ec₂, ei₂, cache, ld⟩
              cid := by
      intro cid
      have habi : get_abi_for_contract canon
          ⟨⟨md⟩, ct, cp, ec, ei, cache, ld⟩ cid
          = get_abi_for_contract canon
              ⟨⟨md₂⟩, ct, cp, ec₂, ei₂, cache, ld⟩ cid := rfl
      have hdep : get_deployments canon ⟨md⟩ cid
          = get_deployments canon ⟨md₂⟩ cid := by
        unfold get_deployments
        rw [hfind]
      unfold contractBlock
      dsimp only
      rw [habi, hdep]
      rw [if_congr (hec.mem_iff) rfl rfl]
      by_cases hexp : (cid.path, cid.name) ∈ ec₂
      · rw [if_pos hexp, if_pos hexp]
        congr 1
        apply congrArg
        apply List.flatMap_congr
        intro addr _
        unfold instanceBlock
        dsimp only
        rw [if_congr (hei.mem_iff) rfl rfl]
      · rw [if_neg hexp, if_neg hexp]
    rw [build_tree_nodes_eq, build_tree_nodes_eq,
      sortByLe_eq_of_perm contractIdLeB contractIdLeB_trans
        contractIdLeB_total contractIdLeB_antisymm hcwc]
    exact congrArg _ (List.flatMap_congr fun cid _ => hblock cid)

/-- C4 witness: a concrete app state; the build is invariant under
reversing the registry list and the expansion sets. -/
theorem build_tree_nodes_shape_det_witness :
    build_tree_nodes (fun _ => none)
      ⟨⟨[("/x/a.sol:Foo", ["0xaa"]), ("/x/b.sol:Bar", [])]⟩, none, none,
       [("/x/a.sol", "Foo"), ("/x/b.sol", "Bar")], ["0xaa"], [],
       fun _ => none⟩
    = build_tree_nodes (fun _ => none)
      ⟨⟨[("/x/b.sol:Bar", []), ("/x/a.sol:Foo", ["0xaa"])]⟩, none, none,
       [("/x/b.sol", "Bar"), ("/x/a.sol", "Foo")], ["0xaa"], [],
       fun _ => none⟩ :=
  (build_tree_nodes_shape_det (fun _ => none)
    ⟨⟨[("/x/a.sol:Foo", ["0xaa"]), ("/x/b.sol:Bar", [])]⟩, none, none,
     [("/x/a.sol", "Foo"), ("/x/b.sol", "Bar")], ["0xaa"], [],
     fun _ => none⟩).2.2
    ⟨⟨[("/x/b.sol:Bar", []), ("/x/a.sol:Foo", ["0xaa"])]⟩, none, none,
     [("/x/b.sol", "Bar"), ("/x/a.sol", "Foo")], ["0xaa"], [],
     fun _ => none⟩
    (by decide) (by decide) (by decide) (by decide) rfl rfl rfl rfl

end EvmCli
